import Mathlib

/-!
Shallow embedding of the xml-editor repository's core text-processing code
(`src/controllers/xml_controller.py` and `src/controllers/xml_consistency_checker.py`)
and proofs about it.

Strings are modelled as `List Char`; Python's `str` methods used by the source
(`strip`, `split`, `startswith`, substring containment, `find`) are embedded as
executable functions on `List Char` below.
-/

/-- Python whitespace characters recognised by `str.strip()` / `str.split()`
(ASCII range, as used by the source's data). -/
def isPyWS (c : Char) : Bool :=
  c = ' ' || c = '\t' || c = '\n' || c = '\r' || c = '\x0b' || c = '\x0c'

/-- Removes trailing Python-whitespace characters (the tail half of `str.strip()`). -/
def dropTrailingWS : List Char → List Char
  | [] => []
  | c :: cs =>
    match dropTrailingWS cs with
    | [] => if isPyWS c then [] else [c]
    | r :: rs => c :: (r :: rs)

/-- Python `str.strip()`: drop leading and trailing whitespace. -/
def pyStrip (l : List Char) : List Char :=
  dropTrailingWS (l.dropWhile isPyWS)

/-- Python substring containment `pat in s`. -/
def containsSub (pat : List Char) : List Char → Bool
  | [] => pat.isEmpty
  | c :: cs => pat.isPrefixOf (c :: cs) || containsSub pat cs

/-- Splits a list at the first occurrence of character `a`
(Python `str.find` followed by slicing): returns the part before and after. -/
def splitAtChar (a : Char) : List Char → Option (List Char × List Char)
  | [] => none
  | c :: cs =>
    if c = a then some ([], cs)
    else
      match splitAtChar a cs with
      | some (b, r) => some (c :: b, r)
      | none => none

/-- Splits a list at the first occurrence of the substring `pat`:
returns the part before and the part after the occurrence. -/
def splitAtSub (pat : List Char) : List Char → Option (List Char × List Char)
  | [] => if pat.isEmpty then some ([], []) else none
  | c :: cs =>
    if pat.isPrefixOf (c :: cs) then some ([], (c :: cs).drop pat.length)
    else
      match splitAtSub pat cs with
      | some (b, r) => some (c :: b, r)
      | none => none

/-- Python `content.split('\n')`: split at every newline, keeping empty pieces. -/
def splitLines : List Char → List (List Char)
  | [] => [[]]
  | c :: cs =>
    if c = '\n' then [] :: splitLines cs
    else
      match splitLines cs with
      | l :: ls => (c :: l) :: ls
      | [] => [[c]]

/-- Python `enumerate(lines, n)`. -/
def enumFromN : Nat → List α → List (Nat × α)
  | _, [] => []
  | n, a :: as => (n, a) :: enumFromN (n + 1) as

/-- Shape of a successful `splitAtChar`: it decomposes the list around the
first occurrence of the character. -/
theorem splitAtChar_eq (a : Char) :
    ∀ l b r, splitAtChar a l = some (b, r) → l = b ++ a :: r ∧ a ∉ b := by
  intro l
  induction l with
  | nil => intro b r h; simp [splitAtChar] at h
  | cons c cs ih =>
    intro b r h
    by_cases hc : c = a
    · simp [splitAtChar, hc] at h
      obtain ⟨hb, hr⟩ := h
      subst hb; subst hr; subst hc
      simp
    · simp only [splitAtChar, if_neg hc] at h
      cases hsp : splitAtChar a cs with
      | none => rw [hsp] at h; simp at h
      | some p =>
        obtain ⟨b', r'⟩ := p
        rw [hsp] at h
        simp at h
        obtain ⟨hb, hr⟩ := h
        obtain ⟨h1, h2⟩ := ih b' r' hsp
        subst hb; subst hr
        constructor
        · simp [h1]
        · simp [h2]
          intro hca
          exact hc hca.symm

theorem splitAtChar_length {a : Char} {l b r : List Char}
    (h : splitAtChar a l = some (b, r)) : r.length < l.length := by
  have := (splitAtChar_eq a l b r h).1
  subst this
  simp
  omega

/-! ## The tokenizer (`XMLController._get_tokens`)

Scans the text left to right.  At a `<` it takes everything up to the next `>`
as one tag token (discarding an unterminated remainder); otherwise it takes the
text up to the next `<`, discarding whitespace-only spans and stripping the rest. -/

/-- `XMLController._get_tokens`: parse raw text into tag / text tokens. -/
def get_tokens : List Char → List (List Char)
  | [] => []
  | c :: cs =>
    if c = '<' then
      match h : splitAtChar '>' cs with
      | none => []
      | some (mid, rest) => ('<' :: (mid ++ ['>'])) :: get_tokens rest
    else
      if pyStrip ((c :: cs).takeWhile (fun d => d ≠ '<')) = [] then
        get_tokens ((c :: cs).dropWhile (fun d => d ≠ '<'))
      else
        pyStrip ((c :: cs).takeWhile (fun d => d ≠ '<')) ::
          get_tokens ((c :: cs).dropWhile (fun d => d ≠ '<'))
  termination_by l => l.length
  decreasing_by
  all_goals simp_wf
  · have := splitAtChar_length h
    omega
  all_goals
    rename_i hr _
    rw [List.dropWhile_cons]
    simp only [hr, decide_False, Bool.not_false, if_true]
    have hd := (List.dropWhile_sublist (l := rs) (fun d => !decide (d = '<'))).length_le
    omega

/-- `XMLController.minify`: concatenate all tokens with no separator. -/
def minify (l : List Char) : List Char :=
  (get_tokens l).flatten

theorem get_tokens_nil : get_tokens [] = [] := by
  simp [get_tokens]

/-! ## Properties of `pyStrip` -/

theorem dropTrailingWS_cons (c : Char) (cs : List Char) :
    dropTrailingWS (c :: cs) =
      match dropTrailingWS cs with
      | [] => if isPyWS c then [] else [c]
      | r :: rs => c :: (r :: rs) := rfl

theorem dropTrailingWS_starts (c : Char) (cs : List Char) :
    dropTrailingWS (c :: cs) = [] ∨ ∃ t, dropTrailingWS (c :: cs) = c :: t := by
  rw [dropTrailingWS_cons]
  cases dropTrailingWS cs with
  | nil =>
    by_cases h : isPyWS c
    · left; simp [h]
    · right; exact ⟨[], by simp [h]⟩
  | cons r rs => right; exact ⟨r :: rs, rfl⟩

theorem dropTrailingWS_idem (l : List Char) :
    dropTrailingWS (dropTrailingWS l) = dropTrailingWS l := by
  induction l with
  | nil => rfl
  | cons c cs ih =>
    rw [dropTrailingWS_cons c cs]
    cases h : dropTrailingWS cs with
    | nil =>
      by_cases hw : isPyWS c
      · simp [hw, dropTrailingWS]
      · simp [hw, dropTrailingWS]
    | cons r rs =>
      rw [h] at ih
      rw [dropTrailingWS_cons c (r :: rs), ih]

theorem dropTrailingWS_sublist (l : List Char) : (dropTrailingWS l).Sublist l := by
  induction l with
  | nil => simp [dropTrailingWS]
  | cons c cs ih =>
    rw [dropTrailingWS_cons]
    cases h : dropTrailingWS cs with
    | nil =>
      by_cases hw : isPyWS c
      · simp [hw]
      · simp [hw]
    | cons r rs =>
      rw [h] at ih
      exact ih.cons₂ c

theorem pyStrip_sublist (l : List Char) : (pyStrip l).Sublist l :=
  (dropTrailingWS_sublist _).trans (List.dropWhile_sublist _)

theorem dropWhile_head_false {p : Char → Bool} :
    ∀ {l : List Char} {a : Char} {u : List Char},
      l.dropWhile p = a :: u → p a = false := by
  intro l
  induction l with
  | nil => intro a u h; cases h
  | cons c cs ih =>
    intro a u h
    rw [List.dropWhile_cons] at h
    by_cases hw : p c = true
    · rw [if_pos hw] at h
      exact ih h
    · rw [if_neg hw] at h
      injection h with h1 _
      rw [← h1]
      exact Bool.eq_false_iff.mpr hw

theorem pyStrip_head_not_ws {l : List Char} {c : Char} {t : List Char}
    (h : pyStrip l = c :: t) : isPyWS c = false := by
  cases hu : l.dropWhile isPyWS with
  | nil =>
    unfold pyStrip at h
    rw [hu] at h
    cases h
  | cons a u =>
    have hha : isPyWS a = false := dropWhile_head_false hu
    unfold pyStrip at h
    rw [hu] at h
    rcases dropTrailingWS_starts a u with h0 | ⟨t', ht⟩
    · rw [h0] at h
      cases h
    · rw [ht] at h
      injection h with h1 _
      rw [← h1]
      exact hha

theorem pyStrip_idem (l : List Char) : pyStrip (pyStrip l) = pyStrip l := by
  cases h : pyStrip l with
  | nil => rfl
  | cons c t =>
    have hw := pyStrip_head_not_ws h
    unfold pyStrip
    rw [List.dropWhile_cons, hw]
    simp only [Bool.false_eq_true, if_false]
    have hexp : dropTrailingWS (c :: t)
        = dropTrailingWS (dropTrailingWS (l.dropWhile isPyWS)) := by
      rw [show dropTrailingWS (l.dropWhile isPyWS) = pyStrip l from rfl, h]
    rw [hexp, dropTrailingWS_idem]
    exact h

/-! ## takeWhile / dropWhile over appends -/

theorem takeWhile_append_all {p : Char → Bool} :
    ∀ {xs ys : List Char}, (∀ a ∈ xs, p a = true) →
      (xs ++ ys).takeWhile p = xs ++ ys.takeWhile p := by
  intro xs
  induction xs with
  | nil => intro ys _; simp
  | cons x xs ih =>
    intro ys h
    have hx : p x = true := h x (by simp)
    simp only [List.cons_append, List.takeWhile_cons, hx, if_true]
    rw [ih (fun a ha => h a (by simp [ha]))]

theorem dropWhile_append_all {p : Char → Bool} :
    ∀ {xs ys : List Char}, (∀ a ∈ xs, p a = true) →
      (xs ++ ys).dropWhile p = ys.dropWhile p := by
  intro xs
  induction xs with
  | nil => intro ys _; simp
  | cons x xs ih =>
    intro ys h
    have hx : p x = true := h x (by simp)
    simp only [List.cons_append, List.dropWhile_cons, hx, if_true]
    exact ih (fun a ha => h a (by simp [ha]))

theorem splitAtChar_append {a : Char} :
    ∀ {xs ys : List Char}, a ∉ xs → splitAtChar a (xs ++ a :: ys) = some (xs, ys) := by
  intro xs
  induction xs with
  | nil => intro ys _; simp [splitAtChar]
  | cons x xs ih =>
    intro ys h
    have hx : ¬x = a := fun hc => h (by simp [hc])
    rw [List.cons_append]
    show (if x = a then some ([], xs ++ a :: ys)
      else match splitAtChar a (xs ++ a :: ys) with
        | some (b, r) => some (x :: b, r)
        | none => none) = some (x :: xs, ys)
    rw [if_neg hx, ih (fun hc => h (by simp [hc]))]

/-! ## Unfolding equations for `get_tokens` -/

theorem get_tokens_lt_none {cs : List Char} (h : splitAtChar '>' cs = none) :
    get_tokens ('<' :: cs) = [] := by
  simp only [get_tokens]
  rw [if_pos trivial]
  split
  · rfl
  · rename_i mid rest h'
    rw [h] at h'
    cases h'

theorem get_tokens_lt_some {cs mid rest : List Char}
    (h : splitAtChar '>' cs = some (mid, rest)) :
    get_tokens ('<' :: cs) = ('<' :: (mid ++ ['>'])) :: get_tokens rest := by
  simp only [get_tokens]
  rw [if_pos trivial]
  split
  · rename_i h'
    rw [h] at h'
    cases h'
  · rename_i mid' rest' h'
    rw [h] at h'
    have h2 : (mid, rest) = (mid', rest') := by injection h'
    have hm : mid = mid' := congrArg Prod.fst h2
    have hr : rest = rest' := congrArg Prod.snd h2
    rw [hm, hr]

theorem get_tokens_text {c : Char} {cs : List Char} (hc : ¬c = '<') :
    get_tokens (c :: cs) =
      if pyStrip ((c :: cs).takeWhile (fun d => decide (d ≠ '<'))) = [] then
        get_tokens ((c :: cs).dropWhile (fun d => decide (d ≠ '<')))
      else
        pyStrip ((c :: cs).takeWhile (fun d => decide (d ≠ '<'))) ::
          get_tokens ((c :: cs).dropWhile (fun d => decide (d ≠ '<'))) := by
  simp only [get_tokens, if_neg hc]

/-! ## The token-shape invariant behind minify idempotence -/

/-- A tag token: starts with `<`, ends with the first `>` found after it. -/
def tagShape (t : List Char) : Prop :=
  ∃ m, t = '<' :: (m ++ ['>']) ∧ '>' ∉ m

/-- A text token: nonempty, free of `<`, already stripped. -/
def textShape (t : List Char) : Prop :=
  t ≠ [] ∧ '<' ∉ t ∧ pyStrip t = t

/-- Invariant satisfied by every token list the tokenizer produces: each token is
a tag or a text token, and a text token is never immediately followed by another
text token. -/
inductive GoodTokens : List (List Char) → Prop
  | nil : GoodTokens []
  | tag {t ts} : tagShape t → GoodTokens ts → GoodTokens (t :: ts)
  | textNil {t} : textShape t → GoodTokens [t]
  | textTag {t t' ts} : textShape t → tagShape t' → GoodTokens (t' :: ts) →
      GoodTokens (t :: t' :: ts)

theorem get_tokens_lt_head (cs : List Char) :
    get_tokens ('<' :: cs) = [] ∨
      ∃ t ts, get_tokens ('<' :: cs) = t :: ts ∧ tagShape t := by
  cases h : splitAtChar '>' cs with
  | none => left; exact get_tokens_lt_none h
  | some p =>
    obtain ⟨mid, rest⟩ := p
    right
    exact ⟨'<' :: (mid ++ ['>']), get_tokens rest, get_tokens_lt_some h,
      ⟨mid, rfl, (splitAtChar_eq '>' cs mid rest h).2⟩⟩

theorem get_tokens_good (l : List Char) : GoodTokens (get_tokens l) := by
  induction l using get_tokens.induct with
  | case1 =>
    rw [get_tokens_nil]
    exact GoodTokens.nil
  | case2 rs h =>
    rw [get_tokens_lt_none h]
    exact GoodTokens.nil
  | case3 rs mid rest h ih =>
    rw [get_tokens_lt_some h]
    exact GoodTokens.tag ⟨mid, rfl, (splitAtChar_eq '>' rs mid rest h).2⟩ ih
  | case4 r rs hr hstrip ih =>
    rw [get_tokens_text hr, if_pos hstrip]
    exact ih
  | case5 r rs hr hstrip ih =>
    rw [get_tokens_text hr, if_neg hstrip]
    have htxt : textShape (pyStrip (List.takeWhile (fun d => decide (d ≠ '<')) (r :: rs))) := by
      refine ⟨hstrip, ?_, pyStrip_idem _⟩
      intro hmem
      have h1 : '<' ∈ List.takeWhile (fun d => decide (d ≠ '<')) (r :: rs) :=
        (pyStrip_sublist _).subset hmem
      have := List.mem_takeWhile_imp h1
      simp at this
    cases hdw : List.dropWhile (fun d => decide (d ≠ '<')) (r :: rs) with
    | nil =>
      rw [get_tokens_nil]
      exact GoodTokens.textNil htxt
    | cons d ds =>
      have hd : d = '<' := by
        have := dropWhile_head_false hdw
        simpa using this
      subst hd
      rw [hdw] at ih
      rcases get_tokens_lt_head ds with hnil | ⟨t, ts, hts, htag⟩
      · rw [hnil]
        exact GoodTokens.textNil htxt
      · rw [hts]
        rw [hts] at ih
        exact GoodTokens.textTag htxt htag ih

/-- Re-tokenizing the concatenation of a well-shaped token list reproduces it. -/
theorem get_tokens_flatten {ts : List (List Char)} (h : GoodTokens ts) :
    get_tokens ts.flatten = ts := by
  induction h with
  | nil => simp [get_tokens_nil]
  | @tag t ts' htag hgood ih =>
    obtain ⟨m, hm, hnm⟩ := htag
    subst hm
    have hstep : (('<' :: (m ++ ['>'])) :: ts').flatten
        = '<' :: (m ++ '>' :: ts'.flatten) := by simp
    rw [hstep, get_tokens_lt_some (splitAtChar_append hnm), ih]
  | @textNil t htxt =>
    obtain ⟨hne, hnlt, hstrip⟩ := htxt
    cases t with
    | nil => exact absurd rfl hne
    | cons c cs =>
      have hc : ¬c = '<' := fun hcc => hnlt (by simp [hcc])
      have hall : ∀ a ∈ c :: cs, (fun d => decide (d ≠ '<')) a = true := by
        intro a ha
        simp only [decide_eq_true_eq]
        exact fun hlt => hnlt (hlt ▸ ha)
      have htw : List.takeWhile (fun d => decide (d ≠ '<')) (c :: cs) = c :: cs := by
        have := @takeWhile_append_all _ _ [] hall
        simpa using this
      have hdw : List.dropWhile (fun d => decide (d ≠ '<')) (c :: cs) = [] := by
        have := @dropWhile_append_all _ _ [] hall
        simpa using this
      have hflat : ((c :: cs) :: ([] : List (List Char))).flatten = c :: cs := by simp
      rw [hflat, get_tokens_text hc, htw, hdw, hstrip, if_neg (by simp), get_tokens_nil]
  | @textTag t t' ts' htxt htag hgood ih =>
    obtain ⟨hne, hnlt, hstrip⟩ := htxt
    obtain ⟨m, hm, _⟩ := htag
    cases t with
    | nil => exact absurd rfl hne
    | cons c cs =>
      have hc : ¬c = '<' := fun hcc => hnlt (by simp [hcc])
      have hall : ∀ a ∈ c :: cs, (fun d => decide (d ≠ '<')) a = true := by
        intro a ha
        simp only [decide_eq_true_eq]
        exact fun hlt => hnlt (hlt ▸ ha)
      have hflat2 : (t' :: ts').flatten = '<' :: ((m ++ ['>']) ++ ts'.flatten) := by
        subst hm; simp
      have hstep : ((c :: cs) :: t' :: ts').flatten
          = (c :: cs) ++ ('<' :: ((m ++ ['>']) ++ ts'.flatten)) := by
        rw [← hflat2]
        simp
      rw [hstep]
      have htw : List.takeWhile (fun d => decide (d ≠ '<'))
          ((c :: cs) ++ ('<' :: ((m ++ ['>']) ++ ts'.flatten))) = c :: cs := by
        rw [takeWhile_append_all hall]
        simp [List.takeWhile_cons]
      have hdw : List.dropWhile (fun d => decide (d ≠ '<'))
          ((c :: cs) ++ ('<' :: ((m ++ ['>']) ++ ts'.flatten)))
          = '<' :: ((m ++ ['>']) ++ ts'.flatten) := by
        rw [dropWhile_append_all hall]
        simp [List.dropWhile_cons]
      have hca : (c :: cs) ++ ('<' :: ((m ++ ['>']) ++ ts'.flatten))
          = c :: (cs ++ ('<' :: ((m ++ ['>']) ++ ts'.flatten))) := by simp
      rw [hca, get_tokens_text hc]
      rw [← hca, htw, hdw, hstrip, if_neg (by simp)]
      rw [← hflat2, ih]

/-- C5: Minification is idempotent: re-tokenizing the minified output and
concatenating the tokens again reproduces the same string, because the
tokenizer discards whitespace-only text spans and trims text tokens. -/
theorem claim_C5_minify_idempotent (x : List Char) : minify (minify x) = minify x := by
  unfold minify
  rw [get_tokens_flatten (get_tokens_good x)]

/-! ## The formatter (`XMLController.format`)

The source wraps long leaf text with `textwrap.TextWrapper(width=MAX_WIDTH,
break_long_words=False)`.  That wrapper is embedded below in two stages, as in
the standard library: `splitChunks` transcribes `TextWrapper._split` with the
default `break_on_hyphens=True` (the `wordsep_re` scanner, which also splits
hyphenated compounds right after a hyphen), and `wrapChunksF` transcribes the
line-filling loop of `TextWrapper._wrap_chunks` with `break_long_words=False`,
`drop_whitespace=True` and no indents or line limit.  `_munge_whitespace` is
the identity on the formatter's input, which is space-normalized before
wrapping.  Character classes are those of the stdlib regex restricted to
ASCII. -/

/-- Python `str.split()`: split on whitespace runs, discarding empty pieces. -/
def pyWordsF : Nat → List Char → List (List Char)
  | 0, _ => []
  | _ + 1, [] => []
  | fuel + 1, c :: cs =>
    if isPyWS c then pyWordsF fuel cs
    else
      (c :: cs.takeWhile (fun d => !isPyWS d)) ::
        pyWordsF fuel (cs.dropWhile (fun d => !isPyWS d))

/-- Python `str.split()`: split on whitespace runs, discarding empty pieces.
Defined through `pyWordsF` with the list's length as fuel: the scan consumes
at least one character per step, so that fuel is always sufficient, and the
structural recursion on fuel keeps the function kernel-reducible. -/
def pyWords (l : List Char) : List (List Char) :=
  pyWordsF l.length l

/-- The fuel argument is irrelevant as long as it covers the list's length. -/
theorem pyWordsF_congr :
    ∀ (f₁ : Nat) (l : List Char) (f₂ : Nat), l.length ≤ f₁ → l.length ≤ f₂ →
      pyWordsF f₁ l = pyWordsF f₂ l := by
  intro f₁
  induction f₁ with
  | zero =>
    intro l f₂ h1 _
    have : l = [] := List.eq_nil_of_length_eq_zero (Nat.le_zero.mp h1)
    subst this
    cases f₂ <;> rfl
  | succ f₁ ih =>
    intro l f₂ h1 h2
    cases f₂ with
    | zero =>
      have : l = [] := List.eq_nil_of_length_eq_zero (Nat.le_zero.mp h2)
      subst this
      rfl
    | succ f₂ =>
      cases l with
      | nil => rfl
      | cons c cs =>
        simp only [pyWordsF]
        simp only [List.length_cons] at h1 h2
        by_cases hw : isPyWS c
        · rw [if_pos hw, if_pos hw]
          exact ih cs f₂ (by omega) (by omega)
        · rw [if_neg hw, if_neg hw]
          have hd := (List.dropWhile_sublist (l := cs) (fun d => !isPyWS d)).length_le
          rw [ih (cs.dropWhile (fun d => !isPyWS d)) f₂ (by omega) (by omega)]

/-- Unfolding equations of `pyWords` in the source's recursion shape. -/
theorem pyWords_nil : pyWords [] = [] := rfl

theorem pyWords_ws {c : Char} (cs : List Char) (hw : isPyWS c = true) :
    pyWords (c :: cs) = pyWords cs := by
  unfold pyWords
  simp only [List.length_cons, pyWordsF, if_pos hw]

theorem pyWords_word {c : Char} (cs : List Char) (hw : ¬isPyWS c = true) :
    pyWords (c :: cs) =
      (c :: cs.takeWhile (fun d => !isPyWS d)) ::
        pyWords (cs.dropWhile (fun d => !isPyWS d)) := by
  unfold pyWords
  simp only [List.length_cons, pyWordsF, if_neg hw]
  have hd := (List.dropWhile_sublist (l := cs) (fun d => !isPyWS d)).length_le
  rw [pyWordsF_congr cs.length (cs.dropWhile (fun d => !isPyWS d))
    (cs.dropWhile (fun d => !isPyWS d)).length (by omega) (Nat.le_refl _)]

/-- Python `" ".join(words)`. -/
def joinWords : List (List Char) → List Char
  | [] => []
  | [w] => w
  | w :: ws => w ++ ' ' :: joinWords ws

/-- `" ".join(text.split())` — collapse every whitespace run to a single space. -/
def normalizeWS (l : List Char) : List Char :=
  joinWords (pyWords l)

/-- The formatter's maximum inline width (`MAX_WIDTH = 80`). -/
def MAX_WIDTH : Nat := 80

/-- Word-level greedy filling, the specification's reading of the wrapper
("wrap at word boundaries, never splitting a word"): groups consecutive words
into lines so that joining a group with single spaces stays within
`MAX_WIDTH`; a word longer than the width gets a line of its own, unsplit.
`cur` holds the current line's words in reverse; `curLen` its joined length.
The wrapper below is proved to coincide with this formulation exactly when no
word carries a hyphen. -/
def chunkWords (cur : List (List Char)) (curLen : Nat) :
    List (List Char) → List (List (List Char))
  | [] => [cur.reverse]
  | w :: ws =>
    if curLen + 1 + w.length ≤ MAX_WIDTH then
      chunkWords (w :: cur) (curLen + 1 + w.length) ws
    else
      cur.reverse :: chunkWords [w] w.length ws

/-- `textwrap`'s `letter` class `[^\d\W]` (ASCII): letters and underscore. -/
def isLetter (c : Char) : Bool := c.isAlpha || c = '_'

/-- The regex class `\w` (ASCII): alphanumerics and underscore. -/
def isWordChar (c : Char) : Bool := c.isAlphanum || c = '_'

/-- `textwrap`'s `word_punct` class: `\w` plus a few punctuation marks
(the character with code 39 is the single quote). -/
def isWordPunct (c : Char) : Bool :=
  isWordChar c || c = '!' || c = '"' || c.toNat = 39 || c = '&' || c = '.' ||
    c = ',' || c = '?'

/-- Lookbehind of `wordsep_re`'s hyphenated-word branch, `(?<=lt{2}-)` or
`(?<=lt-lt-)`, evaluated just before the candidate hyphen: `rev` lists the
characters preceding that point, nearest first. -/
def hyphenLB : List Char → Bool
  | a :: b :: more =>
    (isLetter a && isLetter b) ||
      (match more with
       | c2 :: _ => isLetter a && (b == '-') && isLetter c2
       | [] => false)
  | _ => false

/-- Lookahead of the hyphenated-word branch, `(?=lt-?lt)`, applied to the text
after the candidate hyphen. -/
def hyphenLA : List Char → Bool
  | a :: b :: more =>
    isLetter a && (isLetter b || ((b == '-') && (match more with
      | c2 :: _ => isLetter c2
      | [] => false)))
  | _ => false

/-- After skipping the rest of a hyphen run, is the next character a `\w`?
Together with two leading hyphens this decides `(?=-{2,}\w)` (the greedy
`-{2,}` can only satisfy the `\w` lookahead by consuming the full run). -/
def afterHyphens : List Char → Bool
  | [] => false
  | c :: cs => if c == '-' then afterHyphens cs else isWordChar c

/-- Does the text start with an em-dash run: two or more hyphens followed by a
word character? -/
def emDashAhead : List Char → Bool
  | '-' :: '-' :: rest2 => afterHyphens rest2
  | _ => false

/-- The word branch of `wordsep_re`: the lazy `\S+?` has already consumed one
character (recorded in `rev`, the reversed text before the current point);
keep consuming until the earliest stop: a hyphen with the hyphenated-word
lookbehind and lookahead (consumed into the token), the end of the word
(whitespace or end of text ahead), or an em-dash run after word punctuation.
Returns the rest of the token and the remaining text.  Structural fuel
recursion; the fuel is instantiated with the remaining text's length, which
the scan can never exceed. -/
def wordScanF : Nat → List Char → List Char → List Char × List Char
  | 0, _, rest => ([], rest)
  | _ + 1, _, [] => ([], [])
  | fuel + 1, rev, c :: cs =>
    if c == '-' && hyphenLB rev && hyphenLA cs then ([c], cs)
    else if isPyWS c then ([], c :: cs)
    else if (match rev with | p :: _ => isWordPunct p | [] => false)
        && emDashAhead (c :: cs) then
      ([], c :: cs)
    else
      let (tok, rest2) := wordScanF fuel (c :: rev) cs
      (c :: tok, rest2)

/-- The `wordsep_re` scan: alternately match a whitespace run, an em-dash run
between words, or a word token (possibly ending right after a hyphen).  `rev`
is the reversed text already consumed, for the lookbehinds. -/
def chunksF : Nat → List Char → List Char → List (List Char)
  | 0, _, _ => []
  | _ + 1, _, [] => []
  | fuel + 1, rev, c :: cs =>
    if isPyWS c then
      let run := c :: cs.takeWhile isPyWS
      run :: chunksF fuel (run.reverse ++ rev) (cs.dropWhile isPyWS)
    else if (c == '-') && (match rev with | p :: _ => isWordPunct p | [] => false)
        && emDashAhead (c :: cs) then
      let run := c :: cs.takeWhile (fun d => d == '-')
      run :: chunksF fuel (run.reverse ++ rev) (cs.dropWhile (fun d => d == '-'))
    else
      let (tok, rest2) := wordScanF cs.length (c :: rev) cs
      (c :: tok) :: chunksF fuel (tok.reverse ++ c :: rev) rest2

/-- `TextWrapper._split` with `break_on_hyphens=True`: split the text into
indivisible chunks with `wordsep_re` (the scan produces no empty pieces, so
the source's empty-string filter is vacuous). -/
def splitChunks (l : List Char) : List (List Char) :=
  chunksF l.length [] l

/-- The inner loop of `_wrap_chunks`: squeeze chunks onto the current line
while `cur_len + len(chunk) <= width`.  Returns the line's chunks and the
chunks left over. -/
def fillLine : List (List Char) → Nat → List (List Char) × List (List Char)
  | [], _ => ([], [])
  | ch :: chs, curLen =>
    if curLen + ch.length ≤ MAX_WIDTH then
      let (line, rest) := fillLine chs (curLen + ch.length)
      (ch :: line, rest)
    else ([], ch :: chs)

/-- `chunk.strip() == ''`: the chunk is whitespace-only. -/
def isWSChunk (ch : List Char) : Bool := ch.all isPyWS

/-- `_wrap_chunks`'s trailing-whitespace drop: remove the line's last chunk if
it is whitespace-only (`drop_whitespace=True`). -/
def dropTrailingWSChunk (line : List (List Char)) : List (List Char) :=
  match line.getLast? with
  | some ch => if isWSChunk ch then line.dropLast else line
  | none => line

/-- One iteration body of `_wrap_chunks` after the leading-whitespace drop:
fill the line, let `_handle_long_word` (with `break_long_words=False`) move an
over-wide chunk onto the still-empty line, then drop a trailing whitespace
chunk.  Returns the line's chunks and the remaining chunks. -/
def lineStep (chunks : List (List Char)) : List (List Char) × List (List Char) :=
  let (line, rest) := fillLine chunks 0
  let (line2, rest2) :=
    match line, rest with
    | [], ch :: chs => if MAX_WIDTH < ch.length then ([ch], chs) else ([], ch :: chs)
    | _, _ => (line, rest)
  (dropTrailingWSChunk line2, rest2)

/-- The outer loop of `_wrap_chunks`: per iteration, drop a leading whitespace
chunk unless no line has been emitted yet (`linesEmpty`), build one line, and
emit it if nonempty.  Structural fuel recursion; every iteration consumes at
least one chunk, so the chunk count is sufficient fuel. -/
def wrapChunksF : Nat → Bool → List (List Char) → List (List Char)
  | 0, _, _ => []
  | _ + 1, _, [] => []
  | fuel + 1, linesEmpty, ch :: chs =>
    let chunks := if !linesEmpty && isWSChunk ch then chs else ch :: chs
    let (line, rest) := lineStep chunks
    if line.isEmpty then wrapChunksF fuel linesEmpty rest
    else line.flatten :: wrapChunksF fuel false rest

/-- `textwrap.TextWrapper(width=MAX_WIDTH, break_long_words=False).wrap(text)`:
split into `wordsep_re` chunks, then fill lines greedily. -/
def wrapText (l : List Char) : List (List Char) :=
  wrapChunksF (splitChunks l).length true (splitChunks l)

/-- Word-level line filling, the per-line core of `chunkWords`: take words
while they fit (`n + 1 + w.length ≤ MAX_WIDTH`, counting the separating
space), returning the line's words and the words left over. -/
def fillWords : List (List Char) → Nat → List (List Char) × List (List Char)
  | [], _ => ([], [])
  | w :: ws, n =>
    if n + 1 + w.length ≤ MAX_WIDTH then
      let (ln, rest) := fillWords ws (n + 1 + w.length)
      (w :: ln, rest)
    else ([], w :: ws)

/-- The chunk list of a space-separated word sequence continued from an open
line: a single-space chunk before each word. -/
def sepChunks : List (List Char) → List (List Char)
  | [] => []
  | w :: ws => [' '] :: w :: sepChunks ws

/-- The chunk list of a space-separated word sequence: words interleaved with
single-space chunks. -/
def altChunks : List (List Char) → List (List Char)
  | [] => []
  | w :: ws => w :: sepChunks ws

/-- The 4-space indentation unit. -/
def indentation : List Char := "    ".toList

/-- Python `indentation * n`. -/
def indentN (n : Nat) : List Char :=
  (List.replicate n indentation).flatten

/-- Python `indentation * level` for an `int` level: negative repeat counts
produce the empty string. -/
def indentI (i : Int) : List Char :=
  indentN i.toNat

/-- The token-processing loop of `XMLController.format`, transcribed with the
`level` counter as an integer exactly as in the source (`max(0, level - 1)` on
closing tags).  Produces the list of output lines. -/
def formatLinesI : List (List Char) → Int → List (List Char)
  | [], _ => []
  | token :: rest, level =>
    if ("</".toList).isPrefixOf token then
      (indentI (max 0 (level - 1)) ++ token) :: formatLinesI rest (max 0 (level - 1))
    else if (['<']).isPrefixOf token then
      match hrest : rest with
      | t1 :: t2 :: rest2 =>
        if !(['<'].isPrefixOf t1) && ("</".toList).isPrefixOf t2 then
          if MAX_WIDTH < (normalizeWS t1).length then
            ((indentI level ++ token) ::
              (wrapText (normalizeWS t1)).map (fun s => indentI (level + 1) ++ s)) ++
              ((indentI level ++ t2) :: formatLinesI rest2 level)
          else
            (indentI level ++ (token ++ (normalizeWS t1 ++ t2))) :: formatLinesI rest2 level
        else
          (indentI level ++ token) :: formatLinesI rest (level + 1)
      | _ => (indentI level ++ token) :: formatLinesI rest (level + 1)
    else
      (indentI level ++ pyStrip token) :: formatLinesI rest level
  termination_by ts _ => ts.length
  decreasing_by
  all_goals simp_wf
  all_goals try omega
  all_goals (have h9 := congrArg List.length hrest; simp at h9; omega)

/-- The same loop with the level as a natural number, using truncated
subtraction (`level - 1` on `Nat` equals `max(0, level - 1)`). -/
def formatLinesN : List (List Char) → Nat → List (List Char)
  | [], _ => []
  | token :: rest, level =>
    if ("</".toList).isPrefixOf token then
      (indentN (level - 1) ++ token) :: formatLinesN rest (level - 1)
    else if (['<']).isPrefixOf token then
      match hrest : rest with
      | t1 :: t2 :: rest2 =>
        if !(['<'].isPrefixOf t1) && ("</".toList).isPrefixOf t2 then
          if MAX_WIDTH < (normalizeWS t1).length then
            ((indentN level ++ token) ::
              (wrapText (normalizeWS t1)).map (fun s => indentN (level + 1) ++ s)) ++
              ((indentN level ++ t2) :: formatLinesN rest2 level)
          else
            (indentN level ++ (token ++ (normalizeWS t1 ++ t2))) :: formatLinesN rest2 level
        else
          (indentN level ++ token) :: formatLinesN rest (level + 1)
      | _ => (indentN level ++ token) :: formatLinesN rest (level + 1)
    else
      (indentN level ++ pyStrip token) :: formatLinesN rest level
  termination_by ts _ => ts.length
  decreasing_by
  all_goals simp_wf
  all_goals try omega
  all_goals (have h9 := congrArg List.length hrest; simp at h9; omega)

/-- Python `"\n".join(lines)`. -/
def joinLines : List (List Char) → List Char
  | [] => []
  | [l] => l
  | l :: ls => l ++ '\n' :: joinLines ls

/-- `XMLController.format`: tokenize, run the formatting loop from level 0,
join the lines with newlines. -/
def format_xml (x : List Char) : List Char :=
  joinLines (formatLinesI (get_tokens x) 0)

/-! ## The validator (`XMLValidator` in `xml_consistency_checker.py`)

Error kinds, the error record, and the validation report. -/

/-- The validator's error kinds (the Python code uses the strings
`'syntax'`, `'semantic'`, `'structure'`, `'file'`). -/
inductive ErrKind where
  | syntaxKind
  | semanticKind
  | structureKind
  | fileKind
  deriving DecidableEq, Repr

/-- The `XMLError` dataclass: line number, description, error type. -/
structure XMLError where
  line : Nat
  description : List Char
  error_type : ErrKind
  deriving DecidableEq, Repr

/-- The dictionary returned by `validate_file` / `validate_string`. -/
structure Report where
  is_valid : Bool
  error_count : Nat
  errors : List XMLError
  deriving DecidableEq, Repr

/-- First character of an identifier in the tag regexes: `[a-zA-Z_]`. -/
def isNameStart (c : Char) : Bool :=
  c.isAlpha || c = '_'

/-- Subsequent identifier characters: `[a-zA-Z0-9_]`. -/
def isNameChar (c : Char) : Bool :=
  c.isAlphanum || c = '_'

/-- `re.findall(r'<([a-zA-Z_][a-zA-Z0-9_]*)[^/>]*>', line)`: scan for `<`,
a name, a maximal run of characters other than `/` and `>`, then a literal `>`;
on success resume after the `>`, on failure resume one character later. -/
def findOpenTagsF : Nat → List Char → List (List Char)
  | 0, _ => []
  | _ + 1, [] => []
  | fuel + 1, '<' :: d :: ds =>
    if isNameStart d then
      match (ds.dropWhile isNameChar).dropWhile
          (fun x => !(x = '/' || x = '>')) with
      | '>' :: rest => (d :: ds.takeWhile isNameChar) :: findOpenTagsF fuel rest
      | _ => findOpenTagsF fuel (d :: ds)
    else findOpenTagsF fuel (d :: ds)
  | fuel + 1, _ :: cs => findOpenTagsF fuel cs

/-- `re.findall(r'<([a-zA-Z_][a-zA-Z0-9_]*)[^/>]*>', line)` via `findOpenTagsF`
with the list's length as fuel (each step consumes at least one character, so
that fuel is always sufficient, and recursion on fuel stays kernel-reducible). -/
def findOpenTags (l : List Char) : List (List Char) :=
  findOpenTagsF l.length l

/-- `re.findall(r'</([a-zA-Z_][a-zA-Z0-9_]*)>', line)`. -/
def findCloseTagsF : Nat → List Char → List (List Char)
  | 0, _ => []
  | _ + 1, [] => []
  | fuel + 1, '<' :: '/' :: d :: ds =>
    if isNameStart d then
      match ds.dropWhile isNameChar with
      | '>' :: rest => (d :: ds.takeWhile isNameChar) :: findCloseTagsF fuel rest
      | _ => findCloseTagsF fuel ('/' :: d :: ds)
    else findCloseTagsF fuel ('/' :: d :: ds)
  | fuel + 1, _ :: cs => findCloseTagsF fuel cs

/-- `re.findall(r'</([a-zA-Z_][a-zA-Z0-9_]*)>', line)` via `findCloseTagsF`
with the list's length as fuel (always sufficient, kernel-reducible). -/
def findCloseTags (l : List Char) : List (List Char) :=
  findCloseTagsF l.length l

/-- One position's attempt of
`re.search(rf'<{tag}[^/>]*/>|<{tag}[^>]*>.*?</{tag}>', line)`:
either alternative anchored at the current position. -/
def sameLineCloseAt (tag l : List Char) : Bool :=
  ('<' :: tag).isPrefixOf l &&
    (let rest := l.drop (tag.length + 1)
     (match rest.dropWhile (fun x => !(x = '/' || x = '>')) with
      | '/' :: '>' :: _ => true
      | _ => false) ||
     (match rest.dropWhile (fun x => !(x = '>')) with
      | '>' :: rest2 => containsSub ('<' :: '/' :: (tag ++ ['>'])) rest2
      | _ => false))

/-- The search over all start positions of the same regex (used by
`_validate_content` to skip opening tags that close on their own line). -/
def hasSameLineClose (tag : List Char) : List Char → Bool
  | [] => false
  | c :: cs => sameLineCloseAt tag (c :: cs) || hasSameLineClose tag cs

/-- `re.search(r'<id>(.+?)</id>', line)`: the value captured by the first
match — the shortest nonempty span after the first viable `<id>` that is
followed by `</id>`. -/
def searchIdPattern : List Char → Option (List Char)
  | [] => none
  | c :: cs =>
    if ("<id>".toList).isPrefixOf (c :: cs) then
      match (c :: cs).drop 4 with
      | [] => searchIdPattern cs
      | d :: ds =>
        match splitAtSub ("</id>".toList) ds with
        | some (pre, _) => some (d :: pre)
        | none => searchIdPattern cs
    else searchIdPattern cs

/-! Error description builders (the Python f-strings). -/

def malformedGtDesc : List Char := "Malformed tag: missing closing '>'".toList

def malformedLtDesc : List Char := "Malformed tag: missing opening '<'".toList

def closingNoOpenDesc (tag : List Char) : List Char :=
  "Closing tag '</".toList ++ tag ++ ">' without matching opening tag".toList

def mismatchDesc (expected found : List Char) : List Char :=
  "Mismatched tags: expected '</".toList ++ expected ++ ">' but found '</".toList ++
    found ++ ">'".toList

def emptyIdDesc : List Char := "Empty user ID".toList

def dupIdDesc (uid : List Char) : List Char :=
  "Duplicate user ID '".toList ++ uid ++ "'".toList

def invalidFolDesc (uid : List Char) : List Char :=
  "Invalid follower reference: user ID '".toList ++ uid ++ "' does not exist".toList

def emptyNameDesc : List Char := "Empty user name".toList

def emptyBodyDesc : List Char := "Empty post body".toList

def unclosedDesc (tag : List Char) : List Char :=
  "Unclosed tag '<".toList ++ tag ++ ">'".toList

/-- The mutable state of one `_validate_content` run: the accumulated errors,
the tag stack (top at the head; the Python list keeps the top at the end),
the set of user ids seen in this pass, the recorded follower references, and
the (write-only) current user id. -/
structure VState where
  errors : List XMLError
  tag_stack : List (List Char × Nat)
  user_ids : List (List Char)
  follower_ids : List (List Char × Nat)
  current_user_id : Option (List Char)
  deriving Repr

/-- The freshly initialised state. -/
def initVState : VState :=
  ⟨[], [], [], [], none⟩

/-- The body of the opening-tag loop: push the tag unless it has a same-line
self-closing or closing occurrence. -/
def openStep (line : List Char) (ln : Nat) (s : VState) (tag : List Char) : VState :=
  if hasSameLineClose tag line then s
  else { s with tag_stack := (tag, ln) :: s.tag_stack }

/-- Opening-tag processing for one line. -/
def processOpens (st : VState) (line : List Char) (ln : Nat) : VState :=
  (findOpenTags line).foldl (openStep line ln) st

/-- The body of the closing-tag loop: empty stack is an error, a mismatched
top is an error plus a pop, a matching top pops silently. -/
def closeStep (ln : Nat) (s : VState) (tag : List Char) : VState :=
  match s.tag_stack with
  | [] =>
    { s with errors := s.errors ++ [⟨ln, closingNoOpenDesc tag, ErrKind.structureKind⟩] }
  | (top, _) :: rest =>
    if top = tag then { s with tag_stack := rest }
    else
      { s with
        errors := s.errors ++ [⟨ln, mismatchDesc top tag, ErrKind.structureKind⟩],
        tag_stack := rest }

/-- Closing-tag processing for one line. -/
def processCloses (st : VState) (line : List Char) (ln : Nat) : VState :=
  (findCloseTags line).foldl (closeStep ln) st

/-- The semantic identifier checks, gated on the line containing `<id>` and on
the stack holding at least two entries. -/
def semanticId (st : VState) (line : List Char) (ln : Nat) : VState :=
  if containsSub ("<id>".toList) line ∧ 2 ≤ st.tag_stack.length then
    match searchIdPattern line with
    | none => st
    | some raw =>
      let parent : Option (List Char) := st.tag_stack.head?.map Prod.fst
      let user_id := pyStrip raw
      if user_id = [] then
        { st with errors := st.errors ++ [⟨ln, emptyIdDesc, ErrKind.semanticKind⟩] }
      else if parent = some ("user".toList) then
        if user_id ∈ st.user_ids then
          { st with errors := st.errors ++ [⟨ln, dupIdDesc user_id, ErrKind.semanticKind⟩] }
        else
          { st with user_ids := st.user_ids ++ [user_id], current_user_id := some user_id }
      else if parent = some ("follower".toList) then
        { st with follower_ids := st.follower_ids ++ [(user_id, ln)] }
      else st
  else st

/-- The empty `name` / `body` field checks (two independent substring tests). -/
def nameBodyCheck (st : VState) (line : List Char) (ln : Nat) : VState :=
  let st1 :=
    if containsSub ("<name></name>".toList) line ∨ containsSub ("<name> </name>".toList) line then
      { st with errors := st.errors ++ [⟨ln, emptyNameDesc, ErrKind.semanticKind⟩] }
    else st
  if containsSub ("<body></body>".toList) line ∨ containsSub ("<body> </body>".toList) line then
    { st1 with errors := st1.errors ++ [⟨ln, emptyBodyDesc, ErrKind.semanticKind⟩] }
  else st1

/-- One iteration of the `_validate_content` line loop. -/
def processLine (st : VState) (ln : Nat) (raw : List Char) : VState :=
  let line := pyStrip raw
  if line = [] then st
  else if '<' ∈ line ∧ '>' ∉ line then
    { st with errors := st.errors ++ [⟨ln, malformedGtDesc, ErrKind.syntaxKind⟩] }
  else if '>' ∈ line ∧ '<' ∉ line then
    { st with errors := st.errors ++ [⟨ln, malformedLtDesc, ErrKind.syntaxKind⟩] }
  else
    nameBodyCheck
      (semanticId (processCloses (processOpens st line ln) line ln) line ln) line ln

/-- The line loop of `_validate_content` over the whole content. -/
def pass2 (content : List Char) : VState :=
  (enumFromN 1 (splitLines content)).foldl (fun s p => processLine s p.1 p.2) initVState

/-- One line of `_collect_user_ids` (pass 1): toggle the in-user flag on lines
containing `<user>` / `</user>`, otherwise record the id value of an id line. -/
def collectLine (acc : Bool × List (List Char)) (raw : List Char) : Bool × List (List Char) :=
  let line := pyStrip raw
  if containsSub ("<user>".toList) line then (true, acc.2)
  else if containsSub ("</user>".toList) line then (false, acc.2)
  else if acc.1 && containsSub ("<id>".toList) line then
    match searchIdPattern line with
    | some v =>
      let uid := pyStrip v
      (acc.1, if uid ∈ acc.2 then acc.2 else acc.2 ++ [uid])
    | none => acc
  else acc

/-- `_collect_user_ids`: the set of all user ids found in pass 1
(modelled as a duplicate-free list; only membership is ever used). -/
def collectUserIds (content : List Char) : List (List Char) :=
  ((splitLines content).foldl collectLine (false, [])).2

/-- The deferred follower-reference check at the end of `_validate_content`. -/
def followerErrors (allIds : List (List Char)) (recs : List (List Char × Nat)) :
    List XMLError :=
  (recs.filter (fun p => decide (p.1 ∉ allIds))).map
    (fun p => ⟨p.2, invalidFolDesc p.1, ErrKind.semanticKind⟩)

/-- The end-of-input sweep over entries left on the tag stack (the Python list
iterates bottom-first, hence the reversal of the head-top stack). -/
def unclosedErrors (stack : List (List Char × Nat)) : List XMLError :=
  stack.reverse.map (fun p => ⟨p.2, unclosedDesc p.1, ErrKind.structureKind⟩)

/-- Stable insertion of an error into a line-sorted list: it lands after every
error with a line number less than or equal to its own. -/
def insertByLine : List XMLError → XMLError → List XMLError
  | [], e => [e]
  | x :: xs, e => if x.line ≤ e.line then x :: insertByLine xs e else e :: x :: xs

/-- `sorted(errors, key=lambda x: x.line)`: Python's sort is stable, and a
stable sort by a key is unique, so it equals this insertion sort. -/
def sortByLine (l : List XMLError) : List XMLError :=
  l.foldl insertByLine []

/-- `XMLValidator.validate_string`: both passes, the follower check, the
unclosed-tag sweep, then the report with errors sorted by line. -/
def validate_string (content : List Char) : Report :=
  let allIds := collectUserIds content
  let st := pass2 content
  let errs := (st.errors ++ followerErrors allIds st.follower_ids) ++
    unclosedErrors st.tag_stack
  ⟨errs.length = 0, errs.length, sortByLine errs⟩

/-- The outcome of `open(file_path).read()` as seen by `validate_file`:
the content, a `FileNotFoundError`, or another exception with its message. -/
inductive ReadResult where
  | ok (content : List Char)
  | notFound
  | failed (msg : List Char)

/-- `XMLValidator.validate_file`: its success path repeats the
`validate_string` pipeline on the file's content; the two exception handlers
produce a single file-kind error at line 0. -/
def validate_file (res : ReadResult) (file_path : List Char) : Report :=
  match res with
  | ReadResult.ok content =>
    let allIds := collectUserIds content
    let st := pass2 content
    let errs := (st.errors ++ followerErrors allIds st.follower_ids) ++
      unclosedErrors st.tag_stack
    ⟨errs.length = 0, errs.length, sortByLine errs⟩
  | ReadResult.notFound =>
    ⟨false, 1, [⟨0, "File not found: ".toList ++ file_path, ErrKind.fileKind⟩]⟩
  | ReadResult.failed msg =>
    ⟨false, 1, [⟨0, "Error reading file: ".toList ++ msg, ErrKind.fileKind⟩]⟩

/-- C1: Contrary to the claim, validating the well-formed minimal one-line
document does NOT return `is_valid = true` with `error_count = 0`: every tag on
the line closes on the same line, so no opening tag is pushed, yet every
closing tag is still processed against the empty stack, producing four
Structure errors.  This theorem evaluates the code at the claim's own input. -/
theorem claim_C1_minimal_doc_eval :
    validate_string "<users><user><id>1</id><name>A</name></user></users>".toList =
      ⟨false, 4,
        [⟨1, closingNoOpenDesc "id".toList, ErrKind.structureKind⟩,
         ⟨1, closingNoOpenDesc "name".toList, ErrKind.structureKind⟩,
         ⟨1, closingNoOpenDesc "user".toList, ErrKind.structureKind⟩,
         ⟨1, closingNoOpenDesc "users".toList, ErrKind.structureKind⟩]⟩ := by
  decide

/-- C3: Contrary to the claim, `<a><b></b>` does not yield an unclosed-tag
error for `a`: the opening `<b>` is skipped (it closes on its own line) but the
closing `</b>` is still processed, mismatching the stack top `a` and popping
it, so the single Structure error is a mismatched-tags error and the stack is
empty at end of input.  This theorem evaluates the code at the claim's input. -/
theorem claim_C3_unclosed_eval :
    validate_string "<a><b></b>".toList =
      ⟨false, 1, [⟨1, mismatchDesc "a".toList "b".toList, ErrKind.structureKind⟩]⟩ := by
  decide

/-- C8: `validate_file` on a readable resource returns exactly the report of
`validate_string` on its content; a missing or unreadable resource instead
yields a report with `is_valid = false` and one File-kind error at line 0. -/
theorem claim_C8_validate_file_vs_string :
    (∀ (c p : List Char), validate_file (ReadResult.ok c) p = validate_string c) ∧
    (∀ p : List Char, validate_file ReadResult.notFound p =
      ⟨false, 1, [⟨0, "File not found: ".toList ++ p, ErrKind.fileKind⟩]⟩) ∧
    (∀ (m p : List Char), validate_file (ReadResult.failed m) p =
      ⟨false, 1, [⟨0, "Error reading file: ".toList ++ m, ErrKind.fileKind⟩]⟩) :=
  ⟨fun _ _ => rfl, fun _ => rfl, fun _ _ => rfl⟩


/-! ## Frame lemmas for the per-line validation steps -/

/-- Folding a step that only appends errors (all satisfying `P`) and leaves the
id bookkeeping alone preserves those properties over the whole list. -/
theorem foldl_state_frame {α : Type} (g : VState → α → VState) (P : XMLError → Prop)
    (hg : ∀ s a, ∃ δ, (g s a).errors = s.errors ++ δ ∧ (∀ e ∈ δ, P e) ∧
      (g s a).user_ids = s.user_ids ∧ (g s a).follower_ids = s.follower_ids ∧
      (g s a).current_user_id = s.current_user_id) :
    ∀ (l : List α) (st : VState), ∃ δ, (l.foldl g st).errors = st.errors ++ δ ∧
      (∀ e ∈ δ, P e) ∧
      (l.foldl g st).user_ids = st.user_ids ∧
      (l.foldl g st).follower_ids = st.follower_ids ∧
      (l.foldl g st).current_user_id = st.current_user_id := by
  intro l
  induction l with
  | nil =>
    intro st
    exact ⟨[], by simp, by simp, rfl, rfl, rfl⟩
  | cons a as ih =>
    intro st
    simp only [List.foldl_cons]
    obtain ⟨δ1, h1, hp1, hu1, hf1, hc1⟩ := hg st a
    obtain ⟨δ2, h2, hp2, hu2, hf2, hc2⟩ := ih (g st a)
    refine ⟨δ1 ++ δ2, ?_, ?_, ?_, ?_, ?_⟩
    · rw [h2, h1, List.append_assoc]
    · intro e he
      rcases List.mem_append.mp he with he | he
      exacts [hp1 e he, hp2 e he]
    · rw [hu2, hu1]
    · rw [hf2, hf1]
    · rw [hc2, hc1]

theorem openStep_frame (line : List Char) (ln : Nat) (s : VState) (tag : List Char) :
    ∃ δ, (openStep line ln s tag).errors = s.errors ++ δ ∧
      (∀ e ∈ δ, False) ∧
      (openStep line ln s tag).user_ids = s.user_ids ∧
      (openStep line ln s tag).follower_ids = s.follower_ids ∧
      (openStep line ln s tag).current_user_id = s.current_user_id := by
  unfold openStep
  by_cases h : hasSameLineClose tag line
  · rw [if_pos h]
    exact ⟨[], by simp, by simp, rfl, rfl, rfl⟩
  · rw [if_neg h]
    exact ⟨[], by simp, by simp, rfl, rfl, rfl⟩

/-- The description shapes a closing-tag step can append. -/
def closeDescShape (e : XMLError) : Prop :=
  e.error_type = ErrKind.structureKind ∧
    ((∃ t, e.description = closingNoOpenDesc t) ∨ ∃ a b, e.description = mismatchDesc a b)

/-- Unfolding of `closeStep` at an empty stack. -/
theorem closeStep_nil (ln : Nat) (s : VState) (tag : List Char)
    (hstk : s.tag_stack = []) :
    closeStep ln s tag =
      { s with errors := s.errors ++ [⟨ln, closingNoOpenDesc tag, ErrKind.structureKind⟩] } := by
  unfold closeStep
  rw [hstk]

/-- Unfolding of `closeStep` at a nonempty stack. -/
theorem closeStep_cons (ln : Nat) (s : VState) (tag tn : List Char) (tl : Nat)
    (rest : List (List Char × Nat)) (hstk : s.tag_stack = (tn, tl) :: rest) :
    closeStep ln s tag =
      if tn = tag then { s with tag_stack := rest }
      else
        { s with
          errors := s.errors ++ [⟨ln, mismatchDesc tn tag, ErrKind.structureKind⟩],
          tag_stack := rest } := by
  unfold closeStep
  rw [hstk]

theorem closeStep_frame (ln : Nat) (s : VState) (tag : List Char) :
    ∃ δ, (closeStep ln s tag).errors = s.errors ++ δ ∧
      (∀ e ∈ δ, closeDescShape e) ∧
      (closeStep ln s tag).user_ids = s.user_ids ∧
      (closeStep ln s tag).follower_ids = s.follower_ids ∧
      (closeStep ln s tag).current_user_id = s.current_user_id := by
  cases hstk : s.tag_stack with
  | nil =>
    rw [closeStep_nil ln s tag hstk]
    refine ⟨[⟨ln, closingNoOpenDesc tag, ErrKind.structureKind⟩], rfl, ?_, rfl, rfl, rfl⟩
    intro e he
    simp at he
    subst he
    exact ⟨rfl, Or.inl ⟨tag, rfl⟩⟩
  | cons top rest =>
    obtain ⟨tn, tl⟩ := top
    rw [closeStep_cons ln s tag tn tl rest hstk]
    by_cases htop : tn = tag
    · rw [if_pos htop]
      exact ⟨[], by simp, by simp, rfl, rfl, rfl⟩
    · rw [if_neg htop]
      refine ⟨[⟨ln, mismatchDesc tn tag, ErrKind.structureKind⟩], rfl, ?_, rfl, rfl, rfl⟩
      intro e he
      simp at he
      subst he
      exact ⟨rfl, Or.inr ⟨tn, tag, rfl⟩⟩

theorem processOpens_frame (st : VState) (line : List Char) (ln : Nat) :
    (processOpens st line ln).errors = st.errors ∧
    (processOpens st line ln).user_ids = st.user_ids ∧
    (processOpens st line ln).follower_ids = st.follower_ids ∧
    (processOpens st line ln).current_user_id = st.current_user_id := by
  obtain ⟨δ, he, hp, hu, hf, hc⟩ :=
    foldl_state_frame (openStep line ln) (fun _ => False)
      (openStep_frame line ln) (findOpenTags line) st
  have hδ : δ = [] := by
    cases δ with
    | nil => rfl
    | cons e es => exact absurd (hp e (by simp)) (fun h => h)
  rw [hδ] at he
  simp at he
  exact ⟨he, hu, hf, hc⟩

theorem processCloses_frame (st : VState) (line : List Char) (ln : Nat) :
    ∃ δ, (processCloses st line ln).errors = st.errors ++ δ ∧
      (∀ e ∈ δ, closeDescShape e) ∧
      (processCloses st line ln).user_ids = st.user_ids ∧
      (processCloses st line ln).follower_ids = st.follower_ids ∧
      (processCloses st line ln).current_user_id = st.current_user_id :=
  foldl_state_frame (closeStep ln) closeDescShape (closeStep_frame ln)
    (findCloseTags line) st

theorem semanticId_fields (st : VState) (line : List Char) (ln : Nat) :
    (∃ δ, (semanticId st line ln).errors = st.errors ++ δ ∧
      ∀ e ∈ δ, e.error_type = ErrKind.semanticKind ∧
        (e.description = emptyIdDesc ∨ ∃ u, e.description = dupIdDesc u)) ∧
    (semanticId st line ln).tag_stack = st.tag_stack := by
  unfold semanticId
  by_cases hgate : containsSub ("<id>".toList) line ∧ 2 ≤ st.tag_stack.length
  · rw [if_pos hgate]
    cases hm : searchIdPattern line with
    | none => exact ⟨⟨[], by simp, by simp⟩, rfl⟩
    | some raw =>
      simp only []
      by_cases h0 : pyStrip raw = []
      · rw [if_pos h0]
        refine ⟨⟨[⟨ln, emptyIdDesc, ErrKind.semanticKind⟩], rfl, ?_⟩, rfl⟩
        intro e he
        simp at he
        subst he
        exact ⟨rfl, Or.inl rfl⟩
      · rw [if_neg h0]
        by_cases hpar : (st.tag_stack.head?.map Prod.fst) = some ("user".toList)
        · rw [if_pos hpar]
          by_cases hmem : pyStrip raw ∈ st.user_ids
          · rw [if_pos hmem]
            refine ⟨⟨[⟨ln, dupIdDesc (pyStrip raw), ErrKind.semanticKind⟩], rfl, ?_⟩, rfl⟩
            intro e he
            simp at he
            subst he
            exact ⟨rfl, Or.inr ⟨pyStrip raw, rfl⟩⟩
          · rw [if_neg hmem]
            exact ⟨⟨[], by simp, by simp⟩, rfl⟩
        · rw [if_neg hpar]
          by_cases hfol : (st.tag_stack.head?.map Prod.fst) = some ("follower".toList)
          · rw [if_pos hfol]
            exact ⟨⟨[], by simp, by simp⟩, rfl⟩
          · rw [if_neg hfol]
            exact ⟨⟨[], by simp, by simp⟩, rfl⟩
  · rw [if_neg hgate]
    exact ⟨⟨[], by simp, by simp⟩, rfl⟩

/-- When the tag stack holds fewer than two entries, the whole semantic
identifier block is skipped. -/
theorem semanticId_shallow (st : VState) (line : List Char) (ln : Nat)
    (h : st.tag_stack.length < 2) : semanticId st line ln = st := by
  unfold semanticId
  rw [if_neg (fun hc => absurd hc.2 (by omega))]

theorem nameBodyCheck_fields (st : VState) (line : List Char) (ln : Nat) :
    (∃ δ, (nameBodyCheck st line ln).errors = st.errors ++ δ ∧
      ∀ e ∈ δ, e.error_type = ErrKind.semanticKind ∧
        (e.description = emptyNameDesc ∨ e.description = emptyBodyDesc)) ∧
    (nameBodyCheck st line ln).tag_stack = st.tag_stack ∧
    (nameBodyCheck st line ln).user_ids = st.user_ids ∧
    (nameBodyCheck st line ln).follower_ids = st.follower_ids ∧
    (nameBodyCheck st line ln).current_user_id = st.current_user_id := by
  unfold nameBodyCheck
  by_cases hn : containsSub ("<name></name>".toList) line = true ∨
      containsSub ("<name> </name>".toList) line = true
  · rw [if_pos hn]
    by_cases hb : containsSub ("<body></body>".toList) line = true ∨
        containsSub ("<body> </body>".toList) line = true
    · rw [if_pos hb]
      refine ⟨⟨[⟨ln, emptyNameDesc, ErrKind.semanticKind⟩,
        ⟨ln, emptyBodyDesc, ErrKind.semanticKind⟩], by simp, ?_⟩, rfl, rfl, rfl, rfl⟩
      intro e he
      rcases List.mem_cons.mp he with he | he
      · subst he
        exact ⟨rfl, Or.inl rfl⟩
      · simp at he
        subst he
        exact ⟨rfl, Or.inr rfl⟩
    · rw [if_neg hb]
      refine ⟨⟨[⟨ln, emptyNameDesc, ErrKind.semanticKind⟩], rfl, ?_⟩, rfl, rfl, rfl, rfl⟩
      intro e he
      simp at he
      subst he
      exact ⟨rfl, Or.inl rfl⟩
  · rw [if_neg hn]
    by_cases hb : containsSub ("<body></body>".toList) line = true ∨
        containsSub ("<body> </body>".toList) line = true
    · rw [if_pos hb]
      refine ⟨⟨[⟨ln, emptyBodyDesc, ErrKind.semanticKind⟩], rfl, ?_⟩, rfl, rfl, rfl, rfl⟩
      intro e he
      simp at he
      subst he
      exact ⟨rfl, Or.inr rfl⟩
    · rw [if_neg hb]
      exact ⟨⟨[], by simp, by simp⟩, rfl, rfl, rfl, rfl⟩

/-- On a line that passed the two syntax gates, `processLine` is the
composition of the four sub-steps. -/
theorem processLine_eq_main (st : VState) (ln : Nat) (raw : List Char)
    (h1 : ¬pyStrip raw = [])
    (h2 : ¬('<' ∈ pyStrip raw ∧ '>' ∉ pyStrip raw))
    (h3 : ¬('>' ∈ pyStrip raw ∧ '<' ∉ pyStrip raw)) :
    processLine st ln raw =
      nameBodyCheck
        (semanticId (processCloses (processOpens st (pyStrip raw) ln) (pyStrip raw) ln)
          (pyStrip raw) ln) (pyStrip raw) ln := by
  unfold processLine
  simp only []
  rw [if_neg h1, if_neg h2, if_neg h3]

/-- A character of the pattern occurs in any string that contains the pattern. -/
theorem containsSub_mem {pat l : List Char} (h : containsSub pat l = true)
    {c : Char} (hc : c ∈ pat) : c ∈ l := by
  induction l with
  | nil =>
    unfold containsSub at h
    have : pat = [] := by simpa using h
    subst this
    cases hc
  | cons d ds ih =>
    unfold containsSub at h
    rcases Bool.or_eq_true_iff.mp h with h | h
    · have hp : pat <+: d :: ds := List.isPrefixOf_iff_prefix.mp h
      exact hp.sublist.subset hc
    · exact List.mem_cons_of_mem d (ih h)

/-- The two syntax gates cannot fire on a line containing both `<` and `>`,
and such a line is nonempty. -/
theorem gates_of_lt_gt {line : List Char} (hlt : '<' ∈ line) (hgt : '>' ∈ line) :
    ¬line = [] ∧ ¬('<' ∈ line ∧ '>' ∉ line) ∧ ¬('>' ∈ line ∧ '<' ∉ line) := by
  refine ⟨?_, ?_, ?_⟩
  · intro h
    rw [h] at hlt
    cases hlt
  · intro h
    exact h.2 hgt
  · intro h
    exact h.2 hlt

/-! ## Heads of the error descriptions, and the follower-error predicate -/

theorem closingNoOpenDesc_head (t : List Char) :
    (closingNoOpenDesc t).head? = some 'C' := rfl

theorem mismatchDesc_head (a b : List Char) :
    (mismatchDesc a b).head? = some 'M' := rfl

theorem dupIdDesc_head (u : List Char) : (dupIdDesc u).head? = some 'D' := rfl

theorem unclosedDesc_head (t : List Char) : (unclosedDesc t).head? = some 'U' := rfl

/-- Recognises an "invalid follower reference" error by its fixed description
opening. -/
def isInvalidFolErr (e : XMLError) : Bool :=
  ("Invalid follower reference: user ID '".toList).isPrefixOf e.description

theorem not_isPrefixOf_of_head_ne {p l : List Char} {a b : Char}
    (hp : p.head? = some a) (hl : l.head? = some b) (hne : a ≠ b) :
    p.isPrefixOf l = false := by
  cases p with
  | nil => cases hp
  | cons x xs =>
    cases l with
    | nil => cases hl
    | cons y ys =>
      injection hp with hp
      injection hl with hl
      subst hp
      subst hl
      simp [List.isPrefixOf, hne]

theorem isInvalidFolErr_of_head {e : XMLError} (h : e.description.head? ≠ some 'I') :
    isInvalidFolErr e = false := by
  unfold isInvalidFolErr
  cases hd : e.description.head? with
  | none =>
    cases hde : e.description with
    | nil => rfl
    | cons c cs => rw [hde] at hd; cases hd
  | some c =>
    have hc : c ≠ 'I' := fun hc => h (by rw [hd, hc])
    exact not_isPrefixOf_of_head_ne rfl hd (by simpa using fun hx => hc hx.symm)

theorem invalidFolDesc_isFol (ln : Nat) (u : List Char) (k : ErrKind) :
    isInvalidFolErr ⟨ln, invalidFolDesc u, k⟩ = true := by
  unfold isInvalidFolErr invalidFolDesc
  apply List.isPrefixOf_iff_prefix.mpr
  exact (List.prefix_append _ u).trans (List.prefix_append _ _)

/-- Every error `processLine` can append has a description that does not start
with `'I'`, hence is not an invalid-follower error. -/
theorem processLine_frame (st : VState) (ln : Nat) (raw : List Char) :
    ∃ δ, (processLine st ln raw).errors = st.errors ++ δ ∧
      ∀ e ∈ δ, e.description.head? ≠ some 'I' := by
  unfold processLine
  simp only []
  by_cases h1 : pyStrip raw = []
  · rw [if_pos h1]
    exact ⟨[], by simp, by simp⟩
  · rw [if_neg h1]
    by_cases h2 : '<' ∈ pyStrip raw ∧ '>' ∉ pyStrip raw
    · rw [if_pos h2]
      refine ⟨[⟨ln, malformedGtDesc, ErrKind.syntaxKind⟩], rfl, ?_⟩
      intro e he
      simp at he
      subst he
      show malformedGtDesc.head? ≠ some 'I'
      decide
    · rw [if_neg h2]
      by_cases h3 : '>' ∈ pyStrip raw ∧ '<' ∉ pyStrip raw
      · rw [if_pos h3]
        refine ⟨[⟨ln, malformedLtDesc, ErrKind.syntaxKind⟩], rfl, ?_⟩
        intro e he
        simp at he
        subst he
        show malformedLtDesc.head? ≠ some 'I'
        decide
      · rw [if_neg h3]
        obtain ⟨ho1, _, _, _⟩ := processOpens_frame st (pyStrip raw) ln
        obtain ⟨δc, hc1, hc2, _, _, _⟩ :=
          processCloses_frame (processOpens st (pyStrip raw) ln) (pyStrip raw) ln
        obtain ⟨⟨δs, hs1, hs2⟩, _⟩ :=
          semanticId_fields
            (processCloses (processOpens st (pyStrip raw) ln) (pyStrip raw) ln)
            (pyStrip raw) ln
        obtain ⟨⟨δn, hn1, hn2⟩, _, _, _, _⟩ :=
          nameBodyCheck_fields
            (semanticId (processCloses (processOpens st (pyStrip raw) ln) (pyStrip raw) ln)
              (pyStrip raw) ln) (pyStrip raw) ln
        refine ⟨δc ++ (δs ++ δn), ?_, ?_⟩
        · rw [hn1, hs1, hc1, ho1]
          simp [List.append_assoc]
        · intro e he
          rcases List.mem_append.mp he with he | he
          · rcases (hc2 e he).2 with ⟨t, ht⟩ | ⟨a, b, hab⟩
            · rw [ht, closingNoOpenDesc_head]
              decide
            · rw [hab, mismatchDesc_head]
              decide
          · rcases List.mem_append.mp he with he | he
            · rcases (hs2 e he).2 with ht | ⟨u, hu⟩
              · rw [ht]
                decide
              · rw [hu, dupIdDesc_head]
                decide
            · rcases (hn2 e he).2 with ht | ht
              · rw [ht]
                decide
              · rw [ht]
                decide

/-- Folding `processLine` over enumerated lines preserves "no error starts
with `'I'`". -/
theorem foldl_processLine_not_fol :
    ∀ (ps : List (Nat × List Char)) (st : VState),
      (∀ e ∈ st.errors, e.description.head? ≠ some 'I') →
      ∀ e ∈ (ps.foldl (fun s p => processLine s p.1 p.2) st).errors,
        e.description.head? ≠ some 'I' := by
  intro ps
  induction ps with
  | nil =>
    intro st h
    simpa using h
  | cons p ps ih =>
    intro st h
    simp only [List.foldl_cons]
    apply ih
    obtain ⟨δ, hδ, hp⟩ := processLine_frame st p.1 p.2
    rw [hδ]
    intro e he
    rcases List.mem_append.mp he with he | he
    exacts [h e he, hp e he]

theorem pass2_errors_not_fol (content : List Char) :
    ∀ e ∈ (pass2 content).errors, e.description.head? ≠ some 'I' := by
  unfold pass2
  exact foldl_processLine_not_fol _ initVState (by simp [initVState])

/-! ## The sort is a permutation -/

theorem insertByLine_perm (l : List XMLError) (e : XMLError) :
    (insertByLine l e).Perm (l ++ [e]) := by
  induction l with
  | nil => simp [insertByLine]
  | cons x xs ih =>
    unfold insertByLine
    by_cases h : x.line ≤ e.line
    · rw [if_pos h]
      exact ih.cons x
    · rw [if_neg h]
      exact (List.perm_append_singleton e (x :: xs)).symm

theorem sortByLine_perm (l : List XMLError) : (sortByLine l).Perm l := by
  unfold sortByLine
  suffices h : ∀ (l acc : List XMLError), (l.foldl insertByLine acc).Perm (acc ++ l) by
    simpa using h l []
  intro l
  induction l with
  | nil =>
    intro acc
    simp
  | cons e es ih =>
    intro acc
    simp only [List.foldl_cons]
    refine (ih _).trans ?_
    refine ((insertByLine_perm acc e).append_right es).trans ?_
    have : (acc ++ [e]) ++ es = acc ++ (e :: es) := by simp
    rw [this]

/-- C2 (corrected): after both passes, the validator reports exactly one
Semantic "invalid follower reference" error per recorded follower reference
whose identifier is not in the pass-1 set — the count of such errors in the
final report equals the number of such records, and each such record's error,
carrying the recording line, appears in the report.  (In the dialect's normal
layout no follower reference is ever recorded: the id line's closing tag pops
the stack below the depth gate, and pass 1 collects follower ids nested inside
a user element into the user-id set, so such documents yield no follower
error; see the counterexample.) -/
theorem claim_C2_follower_errors (content : List Char) :
    ((validate_string content).errors.countP isInvalidFolErr) =
      ((pass2 content).follower_ids.filter
        (fun p => decide (p.1 ∉ collectUserIds content))).length ∧
    ∀ p ∈ (pass2 content).follower_ids, p.1 ∉ collectUserIds content →
      (⟨p.2, invalidFolDesc p.1, ErrKind.semanticKind⟩ : XMLError) ∈
        (validate_string content).errors := by
  have herrs : (validate_string content).errors =
      sortByLine (((pass2 content).errors ++
        followerErrors (collectUserIds content) (pass2 content).follower_ids) ++
        unclosedErrors (pass2 content).tag_stack) := rfl
  constructor
  · rw [herrs]
    rw [(sortByLine_perm _).countP_eq]
    rw [List.countP_append, List.countP_append]
    have hz1 : ((pass2 content).errors.countP isInvalidFolErr) = 0 := by
      apply List.countP_eq_zero.mpr
      intro e he
      simp only [isInvalidFolErr_of_head (pass2_errors_not_fol content e he)]
      simp
    have hz2 : ((unclosedErrors (pass2 content).tag_stack).countP isInvalidFolErr) = 0 := by
      apply List.countP_eq_zero.mpr
      intro e he
      unfold unclosedErrors at he
      obtain ⟨p, _, hp⟩ := List.mem_map.mp he
      have : isInvalidFolErr e = false := by
        rw [← hp]
        apply isInvalidFolErr_of_head
        rw [show (⟨p.2, unclosedDesc p.1, ErrKind.structureKind⟩ : XMLError).description
            = unclosedDesc p.1 from rfl, unclosedDesc_head]
        decide
      simp [this]
    have hf : ((followerErrors (collectUserIds content)
        (pass2 content).follower_ids).countP isInvalidFolErr) =
        ((pass2 content).follower_ids.filter
          (fun p => decide (p.1 ∉ collectUserIds content))).length := by
      unfold followerErrors
      rw [List.countP_map]
      apply List.countP_eq_length.mpr
      intro p _
      exact invalidFolDesc_isFol p.2 p.1 ErrKind.semanticKind
    rw [hz1, hz2, hf]
    omega
  · intro p hp hnot
    rw [herrs]
    rw [(sortByLine_perm _).mem_iff]
    apply List.mem_append.mpr
    left
    apply List.mem_append.mpr
    right
    unfold followerErrors
    apply List.mem_map.mpr
    refine ⟨p, List.mem_filter.mpr ⟨hp, by simpa using hnot⟩, rfl⟩

/-- C2 counterexample: in the dialect's normal layout — a follower with id 99
nested inside a user, no user with id 99 anywhere — the code reports NO
invalid-follower-reference error at all, where the claim demands exactly one. -/
theorem claim_C2_counterexample :
    ((validate_string
      ("<users>\n<user>\n<id>1</id>\n<follower>\n<id>99</id>\n</follower>\n</user>\n</users>".toList)).errors.countP
        isInvalidFolErr) = 0 := by
  decide

theorem ne_of_head_ne {l1 l2 : List Char} (h : l1.head? ≠ l2.head?) : l1 ≠ l2 :=
  fun he => h (he ▸ rfl)

/-- C10: the semantic identifier checks are gated on stack depth — on a line
containing `<id>` whose processing leaves fewer than two stack entries at the
semantic-check point, the seen-user-id set and the follower records are left
unchanged and no empty-id, duplicate-id, or follower-reference error is
recorded by that line. -/
theorem claim_C10_depth_gate (st : VState) (ln : Nat) (raw : List Char)
    (hid : containsSub ("<id>".toList) (pyStrip raw) = true)
    (hshallow :
      (processCloses (processOpens st (pyStrip raw) ln) (pyStrip raw) ln).tag_stack.length < 2) :
    (processLine st ln raw).user_ids = st.user_ids ∧
    (processLine st ln raw).follower_ids = st.follower_ids ∧
    ∃ δ, (processLine st ln raw).errors = st.errors ++ δ ∧
      ∀ e ∈ δ, e.description ≠ emptyIdDesc ∧
        (∀ u, e.description ≠ dupIdDesc u) ∧ isInvalidFolErr e = false := by
  have hlt : '<' ∈ pyStrip raw := containsSub_mem hid (by decide)
  have hgt : '>' ∈ pyStrip raw := containsSub_mem hid (by decide)
  obtain ⟨h1, h2, h3⟩ := gates_of_lt_gt hlt hgt
  rw [processLine_eq_main st ln raw h1 h2 h3]
  rw [semanticId_shallow _ _ ln hshallow]
  obtain ⟨ho1, ho2, ho3, _⟩ := processOpens_frame st (pyStrip raw) ln
  obtain ⟨δc, hc1, hc2, hcu, hcf, _⟩ :=
    processCloses_frame (processOpens st (pyStrip raw) ln) (pyStrip raw) ln
  obtain ⟨⟨δn, hn1, hn2⟩, _, hnu, hnf, _⟩ :=
    nameBodyCheck_fields
      (processCloses (processOpens st (pyStrip raw) ln) (pyStrip raw) ln) (pyStrip raw) ln
  refine ⟨?_, ?_, δc ++ δn, ?_, ?_⟩
  · rw [hnu, hcu, ho2]
  · rw [hnf, hcf, ho3]
  · rw [hn1, hc1, ho1, List.append_assoc]
  · intro e he
    rcases List.mem_append.mp he with he | he
    · rcases (hc2 e he).2 with ⟨t, ht⟩ | ⟨a, b, hab⟩
      · refine ⟨?_, ?_, ?_⟩
        · rw [ht]
          exact ne_of_head_ne (by rw [closingNoOpenDesc_head]; decide)
        · intro u
          rw [ht]
          exact ne_of_head_ne (by rw [closingNoOpenDesc_head, dupIdDesc_head]; decide)
        · exact isInvalidFolErr_of_head (by rw [ht, closingNoOpenDesc_head]; decide)
      · refine ⟨?_, ?_, ?_⟩
        · rw [hab]
          exact ne_of_head_ne (by rw [mismatchDesc_head]; decide)
        · intro u
          rw [hab]
          exact ne_of_head_ne (by rw [mismatchDesc_head, dupIdDesc_head]; decide)
        · exact isInvalidFolErr_of_head (by rw [hab, mismatchDesc_head]; decide)
    · rcases (hn2 e he).2 with ht | ht
      · refine ⟨?_, ?_, ?_⟩
        · rw [ht]
          decide
        · intro u
          rw [ht]
          exact ne_of_head_ne (by rw [dupIdDesc_head]; decide)
        · exact isInvalidFolErr_of_head (by rw [ht]; decide)
      · refine ⟨?_, ?_, ?_⟩
        · rw [ht]
          decide
        · intro u
          rw [ht]
          exact ne_of_head_ne (by rw [dupIdDesc_head]; decide)
        · exact isInvalidFolErr_of_head (by rw [ht]; decide)

/-- C10 witness: the line `<id>1</id>` processed from the fresh state leaves
the stack empty (depth 0 at the semantic-check point), so the id value is
neither recorded nor reported. -/
theorem claim_C10_depth_gate_witness :
    (processLine initVState 1 ("<id>1</id>".toList)).user_ids = initVState.user_ids ∧
    (processLine initVState 1 ("<id>1</id>".toList)).follower_ids = initVState.follower_ids ∧
    ∃ δ, (processLine initVState 1 ("<id>1</id>".toList)).errors = initVState.errors ++ δ ∧
      ∀ e ∈ δ, e.description ≠ emptyIdDesc ∧
        (∀ u, e.description ≠ dupIdDesc u) ∧ isInvalidFolErr e = false :=
  claim_C10_depth_gate initVState 1 ("<id>1</id>".toList) (by decide) (by decide)

/-- Unfolding of `semanticId` when the gate holds and the matched identifier
content strips to nothing. -/
theorem semanticId_empty_eq (st : VState) (line : List Char) (ln : Nat) (v : List Char)
    (hgate : containsSub ("<id>".toList) line = true ∧ 2 ≤ st.tag_stack.length)
    (hm : searchIdPattern line = some v) (h0 : pyStrip v = []) :
    semanticId st line ln =
      { st with errors := st.errors ++ [⟨ln, emptyIdDesc, ErrKind.semanticKind⟩] } := by
  unfold semanticId
  rw [if_pos hgate, hm]
  simp only []
  rw [if_pos h0]

/-- C4 (corrected): a line containing `<id>` whose first identifier match has
whitespace-only (hence non-empty) content, processed with at least two stack
entries at the semantic-check point, records the Semantic "Empty user ID"
error for that line.  (The literal `<id></id>` never matches the identifier
pattern — `(.+?)` needs at least one content character — so a truly empty
identifier records nothing; see the counterexample.) -/
theorem claim_C4_ws_id_error (st : VState) (ln : Nat) (raw v : List Char)
    (hid : containsSub ("<id>".toList) (pyStrip raw) = true)
    (hmatch : searchIdPattern (pyStrip raw) = some v)
    (hempty : pyStrip v = [])
    (hstack :
      2 ≤ (processCloses (processOpens st (pyStrip raw) ln) (pyStrip raw) ln).tag_stack.length) :
    ∃ δ, (processLine st ln raw).errors = st.errors ++ δ ∧
      (⟨ln, emptyIdDesc, ErrKind.semanticKind⟩ : XMLError) ∈ δ := by
  have hlt : '<' ∈ pyStrip raw := containsSub_mem hid (by decide)
  have hgt : '>' ∈ pyStrip raw := containsSub_mem hid (by decide)
  obtain ⟨h1, h2, h3⟩ := gates_of_lt_gt hlt hgt
  rw [processLine_eq_main st ln raw h1 h2 h3]
  rw [semanticId_empty_eq _ _ ln v ⟨hid, hstack⟩ hmatch hempty]
  obtain ⟨ho1, _, _, _⟩ := processOpens_frame st (pyStrip raw) ln
  obtain ⟨δc, hc1, _, _, _, _⟩ :=
    processCloses_frame (processOpens st (pyStrip raw) ln) (pyStrip raw) ln
  obtain ⟨⟨δn, hn1, _⟩, _, _, _, _⟩ :=
    nameBodyCheck_fields
      { processCloses (processOpens st (pyStrip raw) ln) (pyStrip raw) ln with
        errors := (processCloses (processOpens st (pyStrip raw) ln) (pyStrip raw) ln).errors ++
          [⟨ln, emptyIdDesc, ErrKind.semanticKind⟩] } (pyStrip raw) ln
  refine ⟨δc ++ ([⟨ln, emptyIdDesc, ErrKind.semanticKind⟩] ++ δn), ?_, ?_⟩
  · rw [hn1]
    simp only []
    rw [hc1, ho1]
    simp [List.append_assoc]
  · simp

/-- C4 counterexample: a document with the literal `<id></id>` nested at depth
two (the depth gate passes) validates with no errors at all — in particular no
"Empty user ID" Semantic error — because `(.+?)` cannot match empty content. -/
theorem claim_C4_counterexample :
    validate_string ("<users>\n<user>\n<id>\n<id></id>\n</user>\n</users>".toList) =
      ⟨true, 0, []⟩ := by
  decide

/-- C4 witness: the line `<id> </id>` at line 4, processed with stack
`users, user, id` (the clean pop of `id` leaves depth 2), records the
"Empty user ID" error. -/
theorem claim_C4_ws_id_error_witness :
    (containsSub ("<id>".toList) (pyStrip ("<id> </id>".toList)) = true) ∧
    (searchIdPattern (pyStrip ("<id> </id>".toList)) = some [' ']) ∧
    (pyStrip [' '] = []) ∧
    ∃ δ,
      (processLine
        ⟨[], [("id".toList, 3), ("user".toList, 2), ("users".toList, 1)], [], [], none⟩
        4 ("<id> </id>".toList)).errors =
        (⟨[], [("id".toList, 3), ("user".toList, 2), ("users".toList, 1)], [], [],
          none⟩ : VState).errors ++ δ ∧
      (⟨4, emptyIdDesc, ErrKind.semanticKind⟩ : XMLError) ∈ δ :=
  ⟨by decide, by decide, by decide,
    claim_C4_ws_id_error
      ⟨[], [("id".toList, 3), ("user".toList, 2), ("users".toList, 1)], [], [], none⟩
      4 ("<id> </id>".toList) [' '] (by decide) (by decide) (by decide) (by decide)⟩

theorem nameBodyCheck_name_mem (st : VState) (line : List Char) (ln : Nat)
    (hn : containsSub ("<name></name>".toList) line = true ∨
      containsSub ("<name> </name>".toList) line = true) :
    ∃ δ, (nameBodyCheck st line ln).errors = st.errors ++ δ ∧
      (⟨ln, emptyNameDesc, ErrKind.semanticKind⟩ : XMLError) ∈ δ := by
  unfold nameBodyCheck
  simp only []
  rw [if_pos hn]
  by_cases hb : containsSub ("<body></body>".toList) line = true ∨
      containsSub ("<body> </body>".toList) line = true
  · rw [if_pos hb]
    exact ⟨[⟨ln, emptyNameDesc, ErrKind.semanticKind⟩,
      ⟨ln, emptyBodyDesc, ErrKind.semanticKind⟩], by simp, by simp⟩
  · rw [if_neg hb]
    exact ⟨[⟨ln, emptyNameDesc, ErrKind.semanticKind⟩], rfl, by simp⟩

theorem nameBodyCheck_body_mem (st : VState) (line : List Char) (ln : Nat)
    (hb : containsSub ("<body></body>".toList) line = true ∨
      containsSub ("<body> </body>".toList) line = true) :
    ∃ δ, (nameBodyCheck st line ln).errors = st.errors ++ δ ∧
      (⟨ln, emptyBodyDesc, ErrKind.semanticKind⟩ : XMLError) ∈ δ := by
  unfold nameBodyCheck
  simp only []
  by_cases hn : containsSub ("<name></name>".toList) line = true ∨
      containsSub ("<name> </name>".toList) line = true
  · rw [if_pos hn, if_pos hb]
    exact ⟨[⟨ln, emptyNameDesc, ErrKind.semanticKind⟩,
      ⟨ln, emptyBodyDesc, ErrKind.semanticKind⟩], by simp, by simp⟩
  · rw [if_neg hn, if_pos hb]
    exact ⟨[⟨ln, emptyBodyDesc, ErrKind.semanticKind⟩], rfl, by simp⟩

/-- C7 (corrected): only a line containing the literal `<name></name>` or
`<name> </name>` (content empty or exactly one space) records the Semantic
"Empty user name" error, and likewise for `body`; any other whitespace-only
content (two spaces, a tab, ...) is NOT detected — see the counterexample. -/
theorem claim_C7_name_body_literals (st : VState) (ln : Nat) (raw : List Char) :
    (containsSub ("<name></name>".toList) (pyStrip raw) = true ∨
        containsSub ("<name> </name>".toList) (pyStrip raw) = true →
      ∃ δ, (processLine st ln raw).errors = st.errors ++ δ ∧
        (⟨ln, emptyNameDesc, ErrKind.semanticKind⟩ : XMLError) ∈ δ) ∧
    (containsSub ("<body></body>".toList) (pyStrip raw) = true ∨
        containsSub ("<body> </body>".toList) (pyStrip raw) = true →
      ∃ δ, (processLine st ln raw).errors = st.errors ++ δ ∧
        (⟨ln, emptyBodyDesc, ErrKind.semanticKind⟩ : XMLError) ∈ δ) := by
  constructor
  · intro hn
    have hlt : '<' ∈ pyStrip raw := by
      rcases hn with hn | hn
      · exact containsSub_mem hn (by decide)
      · exact containsSub_mem hn (by decide)
    have hgt : '>' ∈ pyStrip raw := by
      rcases hn with hn | hn
      · exact containsSub_mem hn (by decide)
      · exact containsSub_mem hn (by decide)
    obtain ⟨h1, h2, h3⟩ := gates_of_lt_gt hlt hgt
    rw [processLine_eq_main st ln raw h1 h2 h3]
    obtain ⟨ho1, _, _, _⟩ := processOpens_frame st (pyStrip raw) ln
    obtain ⟨δc, hc1, _, _, _, _⟩ :=
      processCloses_frame (processOpens st (pyStrip raw) ln) (pyStrip raw) ln
    obtain ⟨⟨δs, hs1, _⟩, _⟩ :=
      semanticId_fields
        (processCloses (processOpens st (pyStrip raw) ln) (pyStrip raw) ln) (pyStrip raw) ln
    obtain ⟨δn, hn1, hmem⟩ :=
      nameBodyCheck_name_mem
        (semanticId (processCloses (processOpens st (pyStrip raw) ln) (pyStrip raw) ln)
          (pyStrip raw) ln) (pyStrip raw) ln hn
    refine ⟨δc ++ (δs ++ δn), ?_, ?_⟩
    · rw [hn1, hs1, hc1, ho1]
      simp [List.append_assoc]
    · simp [hmem]
  · intro hb
    have hlt : '<' ∈ pyStrip raw := by
      rcases hb with hb | hb
      · exact containsSub_mem hb (by decide)
      · exact containsSub_mem hb (by decide)
    have hgt : '>' ∈ pyStrip raw := by
      rcases hb with hb | hb
      · exact containsSub_mem hb (by decide)
      · exact containsSub_mem hb (by decide)
    obtain ⟨h1, h2, h3⟩ := gates_of_lt_gt hlt hgt
    rw [processLine_eq_main st ln raw h1 h2 h3]
    obtain ⟨ho1, _, _, _⟩ := processOpens_frame st (pyStrip raw) ln
    obtain ⟨δc, hc1, _, _, _, _⟩ :=
      processCloses_frame (processOpens st (pyStrip raw) ln) (pyStrip raw) ln
    obtain ⟨⟨δs, hs1, _⟩, _⟩ :=
      semanticId_fields
        (processCloses (processOpens st (pyStrip raw) ln) (pyStrip raw) ln) (pyStrip raw) ln
    obtain ⟨δn, hn1, hmem⟩ :=
      nameBodyCheck_body_mem
        (semanticId (processCloses (processOpens st (pyStrip raw) ln) (pyStrip raw) ln)
          (pyStrip raw) ln) (pyStrip raw) ln hb
    refine ⟨δc ++ (δs ++ δn), ?_, ?_⟩
    · rw [hn1, hs1, hc1, ho1]
      simp [List.append_assoc]
    · simp [hmem]

/-- C7 counterexample: a name element whose content is two spaces — empty
after normalization, hence "whitespace-only" in the claim's sense — produces
NO Semantic error anywhere in the document's report (the code checks only the
two exact literals). -/
theorem claim_C7_counterexample :
    ((validate_string ("<users>\n<user>\n<name>  </name>\n</user>\n</users>".toList)).errors.countP
      (fun e => decide (e.error_type = ErrKind.semanticKind))) = 0 := by
  decide

/-- C7 witness: the literal `<name></name>` line does record the error. -/
theorem claim_C7_name_body_literals_witness :
    (containsSub ("<name></name>".toList) (pyStrip ("<name></name>".toList)) = true ∨
      containsSub ("<name> </name>".toList) (pyStrip ("<name></name>".toList)) = true) ∧
    ∃ δ, (processLine initVState 1 ("<name></name>".toList)).errors =
        initVState.errors ++ δ ∧
      (⟨1, emptyNameDesc, ErrKind.semanticKind⟩ : XMLError) ∈ δ :=
  ⟨Or.inl (by decide),
    (claim_C7_name_body_literals initVState 1 ("<name></name>".toList)).1
      (Or.inl (by decide))⟩

/-- C2 witness: a follower reference recorded outside any `user` element (so
pass 1 collects nothing) produces exactly one invalid-follower error, at the
line where the follower identifier appears. -/
theorem claim_C2_follower_errors_witness :
    ((validate_string ("<root>\n<follower>\n<id>\n<id>99</id>\n".toList)).errors.countP
      isInvalidFolErr) = 1 ∧
    (⟨4, invalidFolDesc ("99".toList), ErrKind.semanticKind⟩ : XMLError) ∈
      (validate_string ("<root>\n<follower>\n<id>\n<id>99</id>\n".toList)).errors :=
  ⟨(claim_C2_follower_errors _).1.trans (by decide),
   (claim_C2_follower_errors _).2 (("99".toList, 4)) (by decide) (by decide)⟩

/-! ## The formatter's level never goes negative (C9) -/

/-- Starting from a nonnegative integer level, the source's integer-level loop
computes exactly the natural-number loop: `max(0, level - 1)` is truncated
subtraction, so the level can never go below zero. -/
theorem formatLinesI_toNat :
    ∀ (ts : List (List Char)) (i : Int), 0 ≤ i →
      formatLinesI ts i = formatLinesN ts i.toNat := by
  intro ts i
  induction ts, i using formatLinesI.induct with
  | case1 i =>
    intro _
    unfold formatLinesI formatLinesN
    rfl
  | case2 token rest level hclose ih =>
    intro hpos
    unfold formatLinesI formatLinesN
    rw [if_pos hclose, if_pos hclose]
    have h2 : (0 : Int) ≤ 0 ⊔ (level - 1) := le_max_left 0 _
    have h3 : (0 ⊔ (level - 1)).toNat = level.toNat - 1 := by omega
    rw [ih h2]
    simp only [indentI, h3]
  | case3 token level hclose hopen t1 t2 rest2 hleaf hlen ih =>
    intro hpos
    unfold formatLinesI formatLinesN
    rw [if_neg hclose, if_neg hclose, if_pos hopen, if_pos hopen]
    simp only []
    rw [if_pos hleaf, if_pos hleaf, if_pos hlen, if_pos hlen]
    have h4 : (level + 1).toNat = level.toNat + 1 := by omega
    rw [ih hpos]
    simp only [indentI, h4]
  | case4 token level hclose hopen t1 t2 rest2 hleaf hlen ih =>
    intro hpos
    unfold formatLinesI formatLinesN
    rw [if_neg hclose, if_neg hclose, if_pos hopen, if_pos hopen]
    simp only []
    rw [if_pos hleaf, if_pos hleaf, if_neg hlen, if_neg hlen]
    rw [ih hpos]
    simp only [indentI]
  | case5 token level hclose hopen t1 t2 rest2 hleaf ih =>
    intro hpos
    unfold formatLinesI formatLinesN
    rw [if_neg hclose, if_neg hclose, if_pos hopen, if_pos hopen]
    simp only []
    rw [if_neg hleaf, if_neg hleaf]
    have h4 : (level + 1).toNat = level.toNat + 1 := by omega
    rw [ih (by omega), h4]
    simp only [indentI]
  | case6 token rest level hclose hopen hshape ih =>
    intro hpos
    have h4 : (level + 1).toNat = level.toNat + 1 := by omega
    cases rest with
    | nil =>
      unfold formatLinesI formatLinesN
      rw [if_neg hclose, if_neg hclose, if_pos hopen, if_pos hopen]
      simp only []
      rw [ih (by omega), h4]
      simp only [indentI]
    | cons t1 rest' =>
      cases rest' with
      | nil =>
        unfold formatLinesI formatLinesN
        rw [if_neg hclose, if_neg hclose, if_pos hopen, if_pos hopen]
        simp only []
        rw [ih (by omega), h4]
        simp only [indentI]
      | cons t2 rest2 => exact absurd rfl (hshape t1 t2 rest2)
  | case7 token rest level hclose hopen ih =>
    intro hpos
    unfold formatLinesI formatLinesN
    rw [if_neg hclose, if_neg hclose]
    rw [if_neg hopen, if_neg hopen]
    rw [ih hpos]
    simp only [indentI]

/-- Every line the natural-level loop emits starts with a whole number of
4-space indentation units. -/
theorem formatLinesN_lines :
    ∀ (ts : List (List Char)) (n : Nat),
      ∀ line ∈ formatLinesN ts n, ∃ (k : Nat) (s : List Char), line = indentN k ++ s := by
  intro ts n
  induction ts, n using formatLinesN.induct with
  | case1 n =>
    intro line hline
    rw [show formatLinesN [] n = [] from by rw [formatLinesN.eq_def]] at hline
    cases hline
  | case2 token rest level hclose ih =>
    intro line hline
    rw [show formatLinesN (token :: rest) level =
        (indentN (level - 1) ++ token) :: formatLinesN rest (level - 1) from by
      rw [formatLinesN.eq_def]
      simp only []
      rw [if_pos hclose]] at hline
    rcases List.mem_cons.mp hline with h | h
    · exact ⟨level - 1, token, h⟩
    · exact ih line h
  | case3 token level hclose hopen t1 t2 rest2 hleaf hlen ih =>
    intro line hline
    rw [show formatLinesN (token :: t1 :: t2 :: rest2) level =
        ((indentN level ++ token) ::
          (wrapText (normalizeWS t1)).map (fun s => indentN (level + 1) ++ s)) ++
          ((indentN level ++ t2) :: formatLinesN rest2 level) from by
      rw [formatLinesN.eq_def]
      simp only []
      rw [if_neg hclose, if_pos hopen, if_pos hleaf, if_pos hlen]] at hline
    rcases List.mem_append.mp hline with h | h
    · rcases List.mem_cons.mp h with h | h
      · exact ⟨level, token, h⟩
      · obtain ⟨s, _, hs⟩ := List.mem_map.mp h
        exact ⟨level + 1, s, hs.symm⟩
    · rcases List.mem_cons.mp h with h | h
      · exact ⟨level, t2, h⟩
      · exact ih line h
  | case4 token level hclose hopen t1 t2 rest2 hleaf hlen ih =>
    intro line hline
    rw [show formatLinesN (token :: t1 :: t2 :: rest2) level =
        (indentN level ++ (token ++ (normalizeWS t1 ++ t2))) :: formatLinesN rest2 level from by
      rw [formatLinesN.eq_def]
      simp only []
      rw [if_neg hclose, if_pos hopen, if_pos hleaf, if_neg hlen]] at hline
    rcases List.mem_cons.mp hline with h | h
    · exact ⟨level, token ++ (normalizeWS t1 ++ t2), h⟩
    · exact ih line h
  | case5 token level hclose hopen t1 t2 rest2 hleaf ih =>
    intro line hline
    rw [show formatLinesN (token :: t1 :: t2 :: rest2) level =
        (indentN level ++ token) :: formatLinesN (t1 :: t2 :: rest2) (level + 1) from by
      rw [formatLinesN.eq_def]
      simp only []
      rw [if_neg hclose, if_pos hopen, if_neg hleaf]] at hline
    rcases List.mem_cons.mp hline with h | h
    · exact ⟨level, token, h⟩
    · exact ih line h
  | case6 token rest level hclose hopen hshape ih =>
    intro line hline
    have heq : formatLinesN (token :: rest) level =
        (indentN level ++ token) :: formatLinesN rest (level + 1) := by
      cases rest with
      | nil =>
        rw [formatLinesN.eq_def]
        simp only []
        rw [if_neg hclose, if_pos hopen]
      | cons t1 rest2 =>
        cases rest2 with
        | nil =>
          rw [formatLinesN.eq_def]
          simp only []
          rw [if_neg hclose, if_pos hopen]
        | cons t2 rest3 => exact absurd rfl (hshape t1 t2 rest3)
    rw [heq] at hline
    rcases List.mem_cons.mp hline with h | h
    · exact ⟨level, token, h⟩
    · exact ih line h
  | case7 token rest level hclose hopen ih =>
    intro line hline
    rw [show formatLinesN (token :: rest) level =
        (indentN level ++ pyStrip token) :: formatLinesN rest level from by
      rw [formatLinesN.eq_def]
      simp only []
      rw [if_neg hclose, if_neg hopen]] at hline
    rcases List.mem_cons.mp hline with h | h
    · exact ⟨level, pyStrip token, h⟩
    · exact ih line h

/-- C9: throughout `format`, the nesting level never goes negative — for every
token list and nonnegative starting level, the source's integer-level loop
(`max(0, level - 1)` on closing tags) coincides with the loop on natural
numbers, and every emitted line is prefixed by a whole (nonnegative) number of
4-space indentation units. -/
theorem claim_C9_level_never_negative (ts : List (List Char)) (n : Nat) :
    formatLinesI ts (n : Int) = formatLinesN ts n ∧
    ∀ line ∈ formatLinesI ts (n : Int),
      ∃ (k : Nat) (s : List Char), line = indentN k ++ s := by
  have h := formatLinesI_toNat ts (n : Int) (by omega)
  rw [Int.toNat_ofNat] at h
  refine ⟨h, ?_⟩
  rw [h]
  exact formatLinesN_lines ts n

/-- C9 witness: a token stream with more closing than opening tags, processed
from level 0. -/
theorem claim_C9_level_never_negative_witness :
    formatLinesI ["</a>".toList, "</b>".toList, "<c>".toList] (0 : Int) =
      formatLinesN ["</a>".toList, "</b>".toList, "<c>".toList] 0 ∧
    ∀ line ∈ formatLinesI ["</a>".toList, "</b>".toList, "<c>".toList] (0 : Int),
      ∃ (k : Nat) (s : List Char), line = indentN k ++ s :=
  claim_C9_level_never_negative ["</a>".toList, "</b>".toList, "<c>".toList] 0

/-! ## Words, normalization and greedy wrapping (C6) -/

theorem pyWords_all_aux :
    ∀ (n : Nat) (l : List Char), l.length ≤ n →
      ∀ w ∈ pyWords l, w ≠ [] ∧ ∀ c ∈ w, isPyWS c = false := by
  intro n
  induction n with
  | zero =>
    intro l h
    have : l = [] := List.eq_nil_of_length_eq_zero (Nat.le_zero.mp h)
    subst this
    rw [pyWords_nil]
    intro w hw
    cases hw
  | succ n ih =>
    intro l h
    cases l with
    | nil =>
      rw [pyWords_nil]
      intro w hw
      cases hw
    | cons c cs =>
      simp only [List.length_cons] at h
      by_cases hw : isPyWS c = true
      · rw [pyWords_ws cs hw]
        exact ih cs (by omega)
      · rw [pyWords_word cs hw]
        intro w hwmem
        rcases List.mem_cons.mp hwmem with he | he
        · subst he
          refine ⟨by simp, ?_⟩
          intro d hd
          rcases List.mem_cons.mp hd with hd | hd
          · subst hd
            exact Bool.eq_false_iff.mpr hw
          · have := List.mem_takeWhile_imp hd
            simpa using this
        · have hlen := (List.dropWhile_sublist (l := cs) (fun d => !isPyWS d)).length_le
          exact ih (cs.dropWhile (fun d => !isPyWS d)) (by omega) w he

theorem pyWords_all (l : List Char) :
    ∀ w ∈ pyWords l, w ≠ [] ∧ ∀ c ∈ w, isPyWS c = false :=
  pyWords_all_aux l.length l (Nat.le_refl _)

theorem pyWords_joinWords :
    ∀ (ws : List (List Char)),
      (∀ w ∈ ws, w ≠ [] ∧ ∀ c ∈ w, isPyWS c = false) →
      pyWords (joinWords ws) = ws := by
  intro ws
  induction ws with
  | nil => intro _; exact pyWords_nil
  | cons w ws ih =>
    intro hall
    obtain ⟨hwne, hwc⟩ := hall w (by simp)
    cases ws with
    | nil =>
      show pyWords (joinWords [w]) = [w]
      have hjw : joinWords [w] = w := rfl
      rw [hjw]
      cases w with
      | nil => exact absurd rfl hwne
      | cons a as =>
        have ha : ¬isPyWS a = true := by simp [hwc a (by simp)]
        rw [pyWords_word as ha]
        have hprop : ∀ d ∈ as, (fun d => !isPyWS d) d = true := by
          intro d hd
          simp [hwc d (by simp [hd])]
        have htw : as.takeWhile (fun d => !isPyWS d) = as := by
          have := @takeWhile_append_all _ _ [] hprop
          simpa using this
        have hdw : as.dropWhile (fun d => !isPyWS d) = [] := by
          have := @dropWhile_append_all _ _ [] hprop
          simpa using this
        rw [htw, hdw, pyWords_nil]
    | cons w2 ws2 =>
      have hj : joinWords (w :: w2 :: ws2) = w ++ ' ' :: joinWords (w2 :: ws2) := rfl
      rw [hj]
      cases w with
      | nil => exact absurd rfl hwne
      | cons a as =>
        rw [List.cons_append]
        have ha : ¬isPyWS a = true := by simp [hwc a (by simp)]
        rw [pyWords_word _ ha]
        have hprop : ∀ d ∈ as, (fun d => !isPyWS d) d = true := by
          intro d hd
          simp [hwc d (by simp [hd])]
        have hsp : isPyWS ' ' = true := by decide
        have htw : (as ++ ' ' :: joinWords (w2 :: ws2)).takeWhile (fun d => !isPyWS d)
            = as := by
          rw [takeWhile_append_all hprop]
          simp [List.takeWhile_cons, hsp]
        have hdw : (as ++ ' ' :: joinWords (w2 :: ws2)).dropWhile (fun d => !isPyWS d)
            = ' ' :: joinWords (w2 :: ws2) := by
          rw [dropWhile_append_all hprop]
          simp [List.dropWhile_cons, hsp]
        rw [htw, hdw, pyWords_ws _ (by decide)]
        rw [ih (fun u hu => hall u (by simp [hu]))]

theorem chunkWords_flatten :
    ∀ (ws : List (List Char)) (cur : List (List Char)) (n : Nat),
      (chunkWords cur n ws).flatten = cur.reverse ++ ws := by
  intro ws
  induction ws with
  | nil =>
    intro cur n
    simp [chunkWords]
  | cons w ws ih =>
    intro cur n
    unfold chunkWords
    by_cases h : n + 1 + w.length ≤ MAX_WIDTH
    · rw [if_pos h, ih]
      simp
    · rw [if_neg h]
      simp only [List.flatten_cons, ih]
      simp

theorem chunkWords_ne_nil :
    ∀ (ws : List (List Char)) (cur : List (List Char)) (n : Nat),
      chunkWords cur n ws ≠ [] := by
  intro ws
  induction ws with
  | nil => intro cur n; simp [chunkWords]
  | cons w ws ih =>
    intro cur n
    unfold chunkWords
    by_cases h : n + 1 + w.length ≤ MAX_WIDTH
    · rw [if_pos h]
      exact ih _ _
    · rw [if_neg h]
      simp

theorem chunkWords_groups (Q : List Char → Prop) :
    ∀ (ws : List (List Char)) (cur : List (List Char)) (n : Nat),
      cur ≠ [] → (∀ w ∈ cur, Q w) → (∀ w ∈ ws, Q w) →
      ∀ g ∈ chunkWords cur n ws, g ≠ [] ∧ ∀ w ∈ g, Q w := by
  intro ws
  induction ws with
  | nil =>
    intro cur n hne hcur _ g hg
    simp [chunkWords] at hg
    subst hg
    refine ⟨by simpa using hne, ?_⟩
    intro w hw
    exact hcur w (List.mem_reverse.mp hw)
  | cons w ws ih =>
    intro cur n hne hcur hws g hg
    unfold chunkWords at hg
    by_cases h : n + 1 + w.length ≤ MAX_WIDTH
    · rw [if_pos h] at hg
      exact ih (w :: cur) _ (by simp)
        (fun u hu => (List.mem_cons.mp hu).elim
          (fun he => he ▸ hws w (by simp)) (hcur u))
        (fun u hu => hws u (by simp [hu])) g hg
    · rw [if_neg h] at hg
      rcases List.mem_cons.mp hg with hg | hg
      · subst hg
        refine ⟨by simpa using hne, ?_⟩
        intro u hu
        exact hcur u (List.mem_reverse.mp hu)
      · exact ih [w] _ (by simp)
          (fun u hu => by simp at hu; exact hu ▸ hws w (by simp))
          (fun u hu => hws u (by simp [hu])) g hg

/-- Structure of the word-level greedy filling on nonempty word lists: its
lines are nonempty and, re-split into words, reproduce exactly the given words
in order — no word is ever split. -/
theorem chunkWords_spec (w : List Char) (ws : List (List Char))
    (hQ : ∀ u ∈ w :: ws, u ≠ [] ∧ ∀ c ∈ u, isPyWS c = false) :
    (chunkWords [w] w.length ws).map joinWords ≠ [] ∧
      (((chunkWords [w] w.length ws).map joinWords).map pyWords).flatten = w :: ws := by
  constructor
  · simp [chunkWords_ne_nil]
  · rw [List.map_map]
    have hmap : (chunkWords [w] w.length ws).map (pyWords ∘ joinWords) =
        (chunkWords [w] w.length ws).map id := by
      apply List.map_congr_left
      intro g hg
      obtain ⟨hgne, hgQ⟩ := chunkWords_groups
        (fun u => u ≠ [] ∧ ∀ c ∈ u, isPyWS c = false) ws [w] w.length (by simp)
        (fun u hu => by simp at hu; exact hu ▸ hQ w (by simp))
        (fun u hu => hQ u (by simp [hu])) g hg
      show pyWords (joinWords g) = g
      exact pyWords_joinWords g hgQ
    rw [hmap]
    rw [List.map_id, chunkWords_flatten]
    simp

/-- `emDashAhead` can only fire on a leading hyphen. -/
theorem emDashAhead_ne {c : Char} (cs : List Char) (h : ¬c = '-') :
    emDashAhead (c :: cs) = false := by
  rw [emDashAhead.eq_def]
  split
  · rename_i heq
    simp at heq
    exact absurd heq.1 h
  · rfl

/-- On hyphen-free text the word branch of `wordsep_re` consumes exactly the
maximal non-whitespace run: none of the hyphen-dependent stops can fire. -/
theorem wordScanF_no_hyphen :
    ∀ (fuel : Nat) (rev rest : List Char), rest.length ≤ fuel →
      (∀ ch ∈ rest, ch ≠ '-') →
      wordScanF fuel rev rest =
        (rest.takeWhile (fun d => !isPyWS d), rest.dropWhile (fun d => !isPyWS d)) := by
  intro fuel
  induction fuel with
  | zero =>
    intro rev rest hlen _
    have : rest = [] := List.eq_nil_of_length_eq_zero (Nat.le_zero.mp hlen)
    subst this
    rfl
  | succ fuel ih =>
    intro rev rest hlen hh
    cases rest with
    | nil => rfl
    | cons c cs =>
      have hcne : ¬c = '-' := hh c (by simp)
      simp only [List.length_cons] at hlen
      simp only [wordScanF]
      rw [if_neg (by simp [hcne])]
      by_cases hws : isPyWS c
      · rw [if_pos hws]
        simp [List.takeWhile_cons, List.dropWhile_cons, hws]
      · rw [if_neg hws,
          if_neg (by simp [emDashAhead_ne cs hcne]),
          ih (c :: rev) cs (by omega) (fun ch hch => hh ch (by simp [hch]))]
        simp [List.takeWhile_cons, List.dropWhile_cons, hws]

/-- `joinWords` of a nonempty word list, with the tail exposed. -/
theorem joinWords_cons (v : List Char) (vs : List (List Char)) :
    joinWords (v :: vs) =
      v ++ (match vs with | [] => [] | _ :: _ => ' ' :: joinWords vs) := by
  cases vs with
  | nil => simp [joinWords]
  | cons v2 vs2 => rfl

/-- Characters of `joinWords` come from the words or are the separator. -/
theorem joinWords_mem :
    ∀ (ws : List (List Char)) (c : Char), c ∈ joinWords ws →
      c = ' ' ∨ ∃ w ∈ ws, c ∈ w := by
  intro ws
  induction ws with
  | nil => intro c hc; cases hc
  | cons w ws ih =>
    intro c hc
    rw [joinWords_cons] at hc
    rcases List.mem_append.mp hc with hc | hc
    · exact Or.inr ⟨w, by simp, hc⟩
    · cases ws with
      | nil => cases hc
      | cons v vs =>
        rcases List.mem_cons.mp hc with hc | hc
        · exact Or.inl hc
        · rcases ih c hc with hc | ⟨u, hu, hcu⟩
          · exact Or.inl hc
          · exact Or.inr ⟨u, by simp [hu], hcu⟩

/-- Every character of every `str.split()` word occurs in the original. -/
theorem pyWords_chars :
    ∀ (n : Nat) (l : List Char), l.length ≤ n →
      ∀ w ∈ pyWords l, ∀ c ∈ w, c ∈ l := by
  intro n
  induction n with
  | zero =>
    intro l h
    have : l = [] := List.eq_nil_of_length_eq_zero (Nat.le_zero.mp h)
    subst this
    rw [pyWords_nil]
    intro w hw
    cases hw
  | succ n ih =>
    intro l h
    cases l with
    | nil =>
      rw [pyWords_nil]
      intro w hw
      cases hw
    | cons c cs =>
      simp only [List.length_cons] at h
      by_cases hw : isPyWS c = true
      · rw [pyWords_ws cs hw]
        intro w hwm d hd
        exact List.mem_cons_of_mem c (ih cs (by omega) w hwm d hd)
      · rw [pyWords_word cs hw]
        intro w hwm d hd
        rcases List.mem_cons.mp hwm with he | he
        · subst he
          rcases List.mem_cons.mp hd with hd | hd
          · exact hd ▸ List.mem_cons_self c cs
          · exact List.mem_cons_of_mem c
              ((List.takeWhile_sublist _).subset hd)
        · have hlen := (List.dropWhile_sublist (l := cs) (fun d => !isPyWS d)).length_le
          exact List.mem_cons_of_mem c
            ((List.dropWhile_sublist _).subset
              (ih (cs.dropWhile (fun d => !isPyWS d)) (by omega) w he d hd))

theorem chunksF_nil : ∀ (fuel : Nat) (rev : List Char), chunksF fuel rev [] = [] := by
  intro fuel rev
  cases fuel <;> rfl

/-- On a space-joined list of hyphen-free words the `wordsep_re` scan yields
exactly the words interleaved with single-space chunks. -/
theorem chunksF_joinWords :
    ∀ (ws : List (List Char)),
      (∀ w ∈ ws, w ≠ [] ∧ ∀ c ∈ w, isPyWS c = false ∧ c ≠ '-') →
      ∀ (fuel : Nat) (rev : List Char), (joinWords ws).length ≤ fuel →
        chunksF fuel rev (joinWords ws) = altChunks ws := by
  intro ws
  induction ws with
  | nil =>
    intro _ fuel rev _
    exact chunksF_nil fuel rev
  | cons w ws ih =>
    intro hall fuel rev hlen
    obtain ⟨hwne, hwc⟩ := hall w (by simp)
    have hrest : ∀ ch ∈ joinWords (w :: ws), ch ≠ '-' := by
      intro ch hch
      rcases joinWords_mem (w :: ws) ch hch with hc | ⟨u, hu, hcu⟩
      · subst hc; decide
      · exact ((hall u hu).2 ch hcu).2
    cases w with
    | nil => exact absurd rfl hwne
    | cons a as =>
      have hane : ¬isPyWS a = true := by simp [(hwc a (by simp)).1]
      have hand : ¬a = '-' := (hwc a (by simp)).2
      have haprop : ∀ d ∈ as, (fun d => !isPyWS d) d = true := by
        intro d hd
        simp [(hwc d (by simp [hd])).1]
      have hsp : isPyWS ' ' = true := by decide
      cases ws with
      | nil =>
        have hj : joinWords [a :: as] = a :: as := rfl
        rw [hj] at hlen ⊢
        simp only [List.length_cons] at hlen
        cases fuel with
        | zero => omega
        | succ fuel =>
          simp only [chunksF]
          rw [if_neg hane, if_neg (by simp [hand]),
            wordScanF_no_hyphen as.length (a :: rev) as (Nat.le_refl _)
              (fun ch hch => by
                refine hrest ch ?_
                rw [hj]
                exact List.mem_cons_of_mem a hch)]
          have htw : as.takeWhile (fun d => !isPyWS d) = as := by
            have := @takeWhile_append_all _ _ [] haprop
            simpa using this
          have hdw : as.dropWhile (fun d => !isPyWS d) = [] := by
            have := @dropWhile_append_all _ _ [] haprop
            simpa using this
          simp only [htw, hdw, chunksF_nil]
          rfl
      | cons v vs =>
        have hj : joinWords ((a :: as) :: v :: vs)
            = a :: (as ++ ' ' :: joinWords (v :: vs)) := rfl
        rw [hj] at hlen ⊢
        simp only [List.length_cons, List.length_append] at hlen
        cases fuel with
        | zero => omega
        | succ fuel =>
          simp only [chunksF]
          rw [if_neg hane, if_neg (by simp [hand]),
            wordScanF_no_hyphen (as ++ ' ' :: joinWords (v :: vs)).length (a :: rev)
              (as ++ ' ' :: joinWords (v :: vs)) (Nat.le_refl _)
              (fun ch hch => by
                refine hrest ch ?_
                rw [hj]
                exact List.mem_cons_of_mem a hch)]
          have htw : (as ++ ' ' :: joinWords (v :: vs)).takeWhile (fun d => !isPyWS d)
              = as := by
            rw [takeWhile_append_all haprop]
            simp [List.takeWhile_cons, hsp]
          have hdw : (as ++ ' ' :: joinWords (v :: vs)).dropWhile (fun d => !isPyWS d)
              = ' ' :: joinWords (v :: vs) := by
            rw [dropWhile_append_all haprop]
            simp [List.dropWhile_cons, hsp]
          simp only [htw, hdw]
          obtain ⟨hvne, hvc⟩ := hall v (by simp)
          have hvhead : ∃ b bs, joinWords (v :: vs) = b :: bs ∧ isPyWS b = false := by
            cases v with
            | nil => exact absurd rfl hvne
            | cons b bs =>
              rw [joinWords_cons, List.cons_append]
              exact ⟨b, _, rfl, (hvc b (by simp)).1⟩
          obtain ⟨b, bs, hbj, hbw⟩ := hvhead
          have hjlen : 1 ≤ (joinWords (v :: vs)).length := by
            rw [hbj]; simp
          cases fuel with
          | zero => omega
          | succ fuel =>
            simp only [chunksF]
            rw [if_pos hsp]
            have htw2 : (joinWords (v :: vs)).takeWhile isPyWS = [] := by
              rw [hbj]
              simp [List.takeWhile_cons, hbw]
            have hdw2 : (joinWords (v :: vs)).dropWhile isPyWS = joinWords (v :: vs) := by
              rw [hbj]
              simp [List.dropWhile_cons, hbw]
            rw [htw2, hdw2,
              ih (fun u hu => hall u (by simp [hu])) fuel _ (by omega)]
            rfl

/-- `wordsep_re` on a space-joined list of hyphen-free words. -/
theorem splitChunks_joinWords (ws : List (List Char))
    (hall : ∀ w ∈ ws, w ≠ [] ∧ ∀ c ∈ w, isPyWS c = false ∧ c ≠ '-') :
    splitChunks (joinWords ws) = altChunks ws :=
  chunksF_joinWords ws hall (joinWords ws).length [] (Nat.le_refl _)

/-- The two halves of `fillWords` reassemble the input. -/
theorem fillWords_append :
    ∀ (ws : List (List Char)) (n : Nat),
      (fillWords ws n).1 ++ (fillWords ws n).2 = ws := by
  intro ws
  induction ws with
  | nil => intro n; rfl
  | cons w ws ih =>
    intro n
    simp only [fillWords]
    by_cases h : n + 1 + w.length ≤ MAX_WIDTH
    · rw [if_pos h]
      simpa using ih (n + 1 + w.length)
    · rw [if_neg h]
      simp

/-- Past the width, no further word fits on the line. -/
theorem fillWords_over (ws : List (List Char)) (n : Nat) (h : MAX_WIDTH < n) :
    fillWords ws n = ([], ws) := by
  cases ws with
  | nil => rfl
  | cons w ws =>
    simp only [fillWords]
    rw [if_neg (by omega)]

/-- The word-level greedy grouping emits one `fillWords` line at a time. -/
theorem chunkWords_eq_fill :
    ∀ (ws cur : List (List Char)) (n : Nat),
      chunkWords cur n ws =
        match (fillWords ws n).2 with
        | [] => [cur.reverse ++ (fillWords ws n).1]
        | r :: rs => (cur.reverse ++ (fillWords ws n).1) :: chunkWords [r] r.length rs := by
  intro ws
  induction ws with
  | nil =>
    intro cur n
    simp [chunkWords, fillWords]
  | cons w ws ih =>
    intro cur n
    simp only [chunkWords, fillWords]
    by_cases h : n + 1 + w.length ≤ MAX_WIDTH
    · rw [if_pos h, if_pos h, ih (w :: cur) (n + 1 + w.length)]
      rcases hfw : fillWords ws (n + 1 + w.length) with ⟨ln, rest⟩
      cases rest with
      | nil => simp
      | cons r rs => simp
    · rw [if_neg h, if_neg h]
      simp

theorem sepChunks_length :
    ∀ (ws : List (List Char)), (sepChunks ws).length = 2 * ws.length := by
  intro ws
  induction ws with
  | nil => rfl
  | cons w ws ih => simp [sepChunks, ih]; omega

/-- The chunk-level inner loop from an open line agrees with `fillWords`: it
either stops right at a word boundary, or additionally swallows the following
separator chunk (then dropped as trailing whitespace). -/
theorem fillLine_sepChunks :
    ∀ (vs : List (List Char)) (n : Nat),
      fillLine (sepChunks vs) n
          = (sepChunks (fillWords vs n).1, sepChunks (fillWords vs n).2) ∨
        ((fillWords vs n).2 ≠ [] ∧
          fillLine (sepChunks vs) n
            = (sepChunks (fillWords vs n).1 ++ [[' ']],
                (sepChunks (fillWords vs n).2).tail)) := by
  intro vs
  induction vs with
  | nil =>
    intro n
    left
    rfl
  | cons r rs ih =>
    intro n
    simp only [sepChunks, fillWords, fillLine, List.length_singleton]
    by_cases h1 : n + 1 ≤ MAX_WIDTH
    · rw [if_pos h1]
      by_cases h2 : n + 1 + r.length ≤ MAX_WIDTH
      · rw [if_pos (show n + 1 + r.length ≤ MAX_WIDTH from h2), if_pos h2]
        rcases ih (n + 1 + r.length) with heq | ⟨hne, heq⟩
        · left
          rw [heq]
          rfl
        · right
          refine ⟨hne, ?_⟩
          rw [heq]
          rfl
      · rw [if_neg (show ¬n + 1 + r.length ≤ MAX_WIDTH from h2), if_neg h2]
        right
        exact ⟨by simp, rfl⟩
    · rw [if_neg h1, if_neg (show ¬n + 1 + r.length ≤ MAX_WIDTH by omega)]
      left
      rfl

/-- Flattening a line of word chunks with separators is `" ".join`. -/
theorem flatten_sepChunks :
    ∀ (ln : List (List Char)) (v : List Char),
      (v :: sepChunks ln).flatten = joinWords (v :: ln) := by
  intro ln
  induction ln with
  | nil =>
    intro v
    simp [sepChunks, joinWords]
  | cons r rs ih =>
    intro v
    have h1 : (v :: sepChunks (r :: rs)).flatten
        = v ++ ' ' :: (r :: sepChunks rs).flatten := by
      simp [sepChunks]
    rw [h1, ih r]
    rfl

/-- The last chunk of a word-chunk line is one of its words. -/
theorem getLast_sepChunks :
    ∀ (ln : List (List Char)) (v : List Char),
      ∃ u, (v :: sepChunks ln).getLast? = some u ∧ (u = v ∨ u ∈ ln) := by
  intro ln
  induction ln with
  | nil =>
    intro v
    exact ⟨v, rfl, Or.inl rfl⟩
  | cons r rs ih =>
    intro v
    obtain ⟨u, hu, hmem⟩ := ih r
    refine ⟨u, ?_, Or.inr ?_⟩
    · show (v :: [' '] :: r :: sepChunks rs).getLast? = some u
      rw [List.getLast?_cons_cons, List.getLast?_cons_cons]
      exact hu
    · rcases hmem with h | h
      · simp [h]
      · simp [h]

/-- A nonempty all-non-whitespace chunk is not a whitespace chunk. -/
theorem isWSChunk_false (u : List Char) (hne : u ≠ [])
    (hc : ∀ c ∈ u, isPyWS c = false) : isWSChunk u = false := by
  cases u with
  | nil => exact absurd rfl hne
  | cons c cs =>
    have hcf : isPyWS c = false := hc c (by simp)
    simp [isWSChunk, List.all_cons, hcf]

/-- Dropping trailing whitespace keeps a line ending in a word. -/
theorem dropTrailingWSChunk_keep (line : List (List Char)) (u : List Char)
    (hlast : line.getLast? = some u) (hu : isWSChunk u = false) :
    dropTrailingWSChunk line = line := by
  unfold dropTrailingWSChunk
  rw [hlast]
  simp only []
  rw [hu]
  rfl

/-- Dropping trailing whitespace removes a final separator chunk. -/
theorem dropTrailingWSChunk_sep (line : List (List Char)) :
    dropTrailingWSChunk (line ++ [[' ']]) = line := by
  unfold dropTrailingWSChunk
  rw [List.getLast?_concat]
  simp only []
  have h1 : isWSChunk [' '] = true := by decide
  rw [h1]
  simp

/-- One `_wrap_chunks` iteration starting at a word: the emitted line is the
`fillWords` line joined with single spaces, and the leftover chunks are the
leftover words (with or without their leading separator chunk). -/
theorem lineStep_sep (v : List Char) (vs : List (List Char))
    (hvne : v ≠ []) (hvc : ∀ c ∈ v, isPyWS c = false)
    (hall : ∀ w ∈ vs, w ≠ [] ∧ ∀ c ∈ w, isPyWS c = false) :
    (lineStep (v :: sepChunks vs)).1.flatten
        = joinWords (v :: (fillWords vs v.length).1) ∧
      (lineStep (v :: sepChunks vs)).1 ≠ [] ∧
      ((lineStep (v :: sepChunks vs)).2 = sepChunks (fillWords vs v.length).2 ∨
        ((fillWords vs v.length).2 ≠ [] ∧
          (lineStep (v :: sepChunks vs)).2
            = (sepChunks (fillWords vs v.length).2).tail)) := by
  have hkeep : dropTrailingWSChunk (v :: sepChunks (fillWords vs v.length).1)
      = v :: sepChunks (fillWords vs v.length).1 := by
    obtain ⟨u, hu, hmem⟩ := getLast_sepChunks (fillWords vs v.length).1 v
    refine dropTrailingWSChunk_keep _ u hu ?_
    rcases hmem with h | h
    · subst h
      exact isWSChunk_false u hvne hvc
    · have humem : u ∈ vs := by
        rw [← fillWords_append vs v.length]
        exact List.mem_append_left _ h
      exact isWSChunk_false u (hall u humem).1 (hall u humem).2
  unfold lineStep
  by_cases hv80 : v.length ≤ MAX_WIDTH
  · have hfl : fillLine (v :: sepChunks vs) 0
        = (v :: (fillLine (sepChunks vs) v.length).1,
            (fillLine (sepChunks vs) v.length).2) := by
      simp only [fillLine]
      rw [if_pos (by simpa using hv80)]
      simp
    rcases fillLine_sepChunks vs v.length with heq | ⟨hne, heq⟩
    · rw [hfl, heq]
      simp only []
      rw [hkeep]
      refine ⟨flatten_sepChunks _ v, by simp, Or.inl (by simp)⟩
    · rw [hfl, heq]
      simp only []
      have hcons : v :: (sepChunks (fillWords vs v.length).1 ++ [[' ']])
          = (v :: sepChunks (fillWords vs v.length).1) ++ [[' ']] := by simp
      rw [hcons, dropTrailingWSChunk_sep]
      exact ⟨flatten_sepChunks _ v, by simp, Or.inr ⟨hne, by simp⟩⟩
  · have hfw : fillWords vs v.length = ([], vs) :=
      fillWords_over vs v.length (by omega)
    have hfl : fillLine (v :: sepChunks vs) 0 = ([], v :: sepChunks vs) := by
      simp only [fillLine]
      rw [if_neg (by simpa using hv80)]
    rw [hfl]
    simp only []
    rw [if_pos (show MAX_WIDTH < v.length by omega)]
    rw [dropTrailingWSChunk_keep [v] v rfl (isWSChunk_false v hvne hvc)]
    rw [hfw]
    refine ⟨by simp [joinWords], by simp, Or.inl rfl⟩

theorem wrapChunksF_nil : ∀ (fuel : Nat) (b : Bool), wrapChunksF fuel b [] = [] := by
  intro fuel b
  cases fuel <;> rfl

/-- Dropping the leading separator chunk of a continuation line: the iteration
then proceeds exactly as if the separator were absent. -/
theorem wrapChunksF_drop (fuel : Nat) (X : List (List Char))
    (hX : X = [] ∨ ∃ v vs, X = v :: vs ∧ isWSChunk v = false) :
    wrapChunksF (fuel + 1) false ([' '] :: X) = wrapChunksF (fuel + 1) false X := by
  rcases hX with hX | ⟨v, vs, hX, hv⟩
  · subst hX
    show wrapChunksF (fuel + 1) false [[' ']] = wrapChunksF (fuel + 1) false []
    simp only [wrapChunksF]
    norm_num [isWSChunk, lineStep, fillLine, dropTrailingWSChunk, wrapChunksF_nil]
  · subst hX
    simp only [wrapChunksF]
    have h1 : (!false && isWSChunk [' ']) = true := by decide
    have h2 : (!false && isWSChunk v) = false := by simp [hv]
    rw [h1, h2]
    simp

/-- The chunk-level wrapper on a word sequence equals the word-level greedy
grouping, line by line. -/
theorem wrapChunksF_sep :
    ∀ (fuel : Nat) (b : Bool) (v : List Char) (vs : List (List Char)),
      v ≠ [] → (∀ c ∈ v, isPyWS c = false) →
      (∀ w ∈ vs, w ≠ [] ∧ ∀ c ∈ w, isPyWS c = false) →
      (v :: sepChunks vs).length ≤ fuel →
      wrapChunksF fuel b (v :: sepChunks vs)
        = (chunkWords [v] v.length vs).map joinWords := by
  intro fuel
  induction fuel with
  | zero =>
    intro b v vs _ _ _ hlen
    simp at hlen
  | succ fuel ih =>
    intro b v vs hvne hvc hall hlen
    simp only [wrapChunksF]
    have hcond : (!b && isWSChunk v) = false := by
      simp [isWSChunk_false v hvne hvc]
    rw [hcond]
    simp only [Bool.false_eq_true, if_false]
    obtain ⟨hflat, hne, hrest⟩ := lineStep_sep v vs hvne hvc hall
    rcases hls : lineStep (v :: sepChunks vs) with ⟨line, rest2⟩
    rw [hls] at hflat hne hrest
    simp only [] at hflat hne hrest
    rw [show line.isEmpty = false by simpa [List.isEmpty_iff] using hne]
    simp only [Bool.false_eq_true, if_false]
    rw [chunkWords_eq_fill vs [v] v.length]
    have hlensep := sepChunks_length vs
    simp only [List.length_cons] at hlen
    have hfwapp := fillWords_append vs v.length
    rcases hfw : (fillWords vs v.length).2 with _ | ⟨r, rs⟩
    · rw [hfw] at hrest
      have hrest2 : rest2 = [] := by
        rcases hrest with h | ⟨h, _⟩
        · simpa [sepChunks] using h
        · exact absurd rfl h
      subst hrest2
      rw [wrapChunksF_nil]
      simp only [List.map_cons, List.map_nil]
      rw [hflat]
      simp
    · rw [hfw] at hrest
      have hrlen : rs.length + 1 ≤ vs.length := by
        have h9 := congrArg List.length hfwapp
        rw [hfw] at h9
        simp at h9
        omega
      have hrgood : ∀ w ∈ r :: rs, w ≠ [] ∧ ∀ c ∈ w, isPyWS c = false := by
        intro w hw
        refine hall w ?_
        rw [← hfwapp, hfw]
        exact List.mem_append_right _ hw
      have hrne := (hrgood r (by simp)).1
      have hrc := (hrgood r (by simp)).2
      have htail : ∀ u ∈ rs, u ≠ [] ∧ ∀ c ∈ u, isPyWS c = false := by
        intro u hu
        exact hrgood u (by simp [hu])
      have hcont : wrapChunksF fuel false rest2
          = (chunkWords [r] r.length rs).map joinWords := by
        rcases hrest with h | ⟨_, h⟩
        · subst h
          have hfe : sepChunks (r :: rs) = [' '] :: r :: sepChunks rs := rfl
          rw [hfe]
          cases fuel with
          | zero =>
            exfalso
            omega
          | succ fuel2 =>
            rw [wrapChunksF_drop fuel2 (r :: sepChunks rs)
              (Or.inr ⟨r, _, rfl, isWSChunk_false r hrne hrc⟩)]
            refine ih false r rs hrne hrc htail ?_
            simp only [List.length_cons]
            rw [sepChunks_length rs]
            omega
        · subst h
          have hfe : (sepChunks (r :: rs)).tail = r :: sepChunks rs := rfl
          rw [hfe]
          refine ih false r rs hrne hrc htail ?_
          simp only [List.length_cons]
          rw [sepChunks_length rs]
          omega
      rw [hcont, hflat]
      simp

/-- On hyphen-free text the faithful wrapper coincides with the word-level
greedy grouping. -/
theorem wrapText_eq_chunkWords (x w : List Char) (ws : List (List Char))
    (hh : '-' ∉ x) (hpw : pyWords x = w :: ws) :
    wrapText (normalizeWS x) = (chunkWords [w] w.length ws).map joinWords := by
  have hgood := pyWords_all x
  have hchar := pyWords_chars x.length x (Nat.le_refl _)
  have hall : ∀ u ∈ pyWords x, u ≠ [] ∧ ∀ c ∈ u, isPyWS c = false ∧ c ≠ '-' := by
    intro u hu
    refine ⟨(hgood u hu).1, ?_⟩
    intro c hc
    refine ⟨(hgood u hu).2 c hc, ?_⟩
    intro he
    exact hh (he ▸ hchar u hu c hc)
  have hsplit : splitChunks (normalizeWS x) = altChunks (pyWords x) :=
    splitChunks_joinWords (pyWords x) hall
  unfold wrapText
  rw [hsplit, hpw]
  have halt : altChunks (w :: ws) = w :: sepChunks ws := rfl
  rw [halt]
  refine wrapChunksF_sep _ true w ws ?_ ?_ ?_ (Nat.le_refl _)
  · exact (hgood w (by rw [hpw]; simp)).1
  · exact (hgood w (by rw [hpw]; simp)).2
  · intro u hu
    exact ⟨(hgood u (by rw [hpw]; simp [hu])).1,
      (hgood u (by rw [hpw]; simp [hu])).2⟩

/-- C6 (amended): the leaf wrap boundary.  For a leaf pattern (opening tag,
text token, closing tag), a whitespace-normalized text of exactly 80
characters is emitted inline — open tag, text, close tag concatenated on one
line at the current indentation — while 81 characters puts the opening tag on
its own line, one or more wrapped lines one indentation level deeper, and the
closing tag back at the opening tag's indentation.  For hyphen-free text the
wrapped lines re-split into exactly the text's words, so no word is split;
the hyphen-free hypothesis is necessary, because the wrapper's default
`break_on_hyphens` splitting may break a hyphenated compound right after a
hyphen (see the counterexample). -/
theorem claim_C6_wrap_boundary (o x c : List Char) (rest : List (List Char)) (level : Int)
    (hO : (['<']).isPrefixOf o = true)
    (hO2 : ("</".toList).isPrefixOf o = false)
    (hX : (['<']).isPrefixOf x = false)
    (hC : ("</".toList).isPrefixOf c = true)
    (hHyph : '-' ∉ x) :
    ((normalizeWS x).length = 80 →
      formatLinesI (o :: x :: c :: rest) level =
        (indentI level ++ (o ++ (normalizeWS x ++ c))) :: formatLinesI rest level) ∧
    ((normalizeWS x).length = 81 →
      formatLinesI (o :: x :: c :: rest) level =
        ((indentI level ++ o) ::
          (wrapText (normalizeWS x)).map (fun s => indentI (level + 1) ++ s)) ++
          ((indentI level ++ c) :: formatLinesI rest level) ∧
      wrapText (normalizeWS x) ≠ [] ∧
      ((wrapText (normalizeWS x)).map pyWords).flatten = pyWords (normalizeWS x)) := by
  have hO2' : ¬("</".toList.isPrefixOf o = true) := by rw [hO2]; decide
  have hleaf : (!(['<'].isPrefixOf x) && ("</".toList).isPrefixOf c) = true := by
    rw [hX, hC]
    rfl
  constructor
  · intro h80
    rw [formatLinesI.eq_def]
    simp only []
    rw [if_neg hO2', if_pos hO, if_pos hleaf,
      if_neg (show ¬MAX_WIDTH < (normalizeWS x).length by rw [h80]; decide)]
  · intro h81
    refine ⟨?_, ?_⟩
    · rw [formatLinesI.eq_def]
      simp only []
      rw [if_neg hO2', if_pos hO, if_pos hleaf,
        if_pos (show MAX_WIDTH < (normalizeWS x).length by rw [h81]; decide)]
    · have hne : pyWords x ≠ [] := by
        intro h0
        have hz : normalizeWS x = [] := by
          unfold normalizeWS
          rw [h0]
          rfl
        rw [hz] at h81
        simp at h81
      have hQx := pyWords_all x
      have hids : pyWords (normalizeWS x) = pyWords x := by
        unfold normalizeWS
        exact pyWords_joinWords (pyWords x) hQx
      cases hpw : pyWords x with
      | nil => exact absurd hpw hne
      | cons w ws =>
        rw [wrapText_eq_chunkWords x w ws hHyph hpw, hids, hpw]
        exact chunkWords_spec w ws (hpw ▸ hQx)

/-- C6 witness: a leaf whose text is 81 copies of `a` wraps (the single long
word is kept unsplit on its own deeper-indented line); the hypotheses and the
81-character length are all checked by evaluation. -/
theorem claim_C6_wrap_boundary_witness :
    ((['<']).isPrefixOf ("<t>".toList) = true) ∧
    (("</".toList).isPrefixOf ("<t>".toList) = false) ∧
    ((['<']).isPrefixOf (List.replicate 81 'a') = false) ∧
    (("</".toList).isPrefixOf ("</t>".toList) = true) ∧
    ('-' ∉ List.replicate 81 'a') ∧
    ((normalizeWS (List.replicate 81 'a')).length = 81) ∧
    (formatLinesI ("<t>".toList :: List.replicate 81 'a' :: "</t>".toList :: []) 0 =
        ((indentI 0 ++ "<t>".toList) ::
          (wrapText (normalizeWS (List.replicate 81 'a'))).map
            (fun s => indentI (0 + 1) ++ s)) ++
          ((indentI 0 ++ "</t>".toList) :: formatLinesI [] 0) ∧
      wrapText (normalizeWS (List.replicate 81 'a')) ≠ [] ∧
      ((wrapText (normalizeWS (List.replicate 81 'a'))).map pyWords).flatten =
        pyWords (normalizeWS (List.replicate 81 'a'))) :=
  ⟨by decide, by decide, by decide, by decide, by decide, by decide,
    (claim_C6_wrap_boundary ("<t>".toList) (List.replicate 81 'a') ("</t>".toList) [] 0
      (by decide) (by decide) (by decide) (by decide) (by decide)).2 (by decide)⟩

/-- C6 counterexample: the original claim's "never splitting a word" fails.
The text `'x' * 40 + '-' + 'y' * 40` is a single 81-character word, yet the
formatter (via `textwrap`'s default `break_on_hyphens=True`) splits it right
after the hyphen across two wrapped lines, so the wrapped lines do not
re-split into the text's words. -/
theorem claim_C6_counterexample :
    (List.replicate 40 'x' ++ '-' :: List.replicate 40 'y').length = 81 ∧
    pyWords (normalizeWS (List.replicate 40 'x' ++ '-' :: List.replicate 40 'y')) =
      [List.replicate 40 'x' ++ '-' :: List.replicate 40 'y'] ∧
    formatLinesI
        ("<t>".toList :: (List.replicate 40 'x' ++ '-' :: List.replicate 40 'y') ::
          "</t>".toList :: []) 0 =
      ["<t>".toList,
        indentN 1 ++ (List.replicate 40 'x' ++ ['-']),
        indentN 1 ++ List.replicate 40 'y',
        "</t>".toList] ∧
    ((wrapText (normalizeWS
        (List.replicate 40 'x' ++ '-' :: List.replicate 40 'y'))).map pyWords).flatten ≠
      pyWords (normalizeWS (List.replicate 40 'x' ++ '-' :: List.replicate 40 'y')) := by
  refine ⟨by decide, by decide, ?_, by decide⟩
  have hnil : formatLinesI ([] : List (List Char)) 0 = [] := by
    rw [formatLinesI.eq_def]
  rw [formatLinesI.eq_def]
  simp only []
  rw [if_neg (show ¬("</".toList.isPrefixOf ("<t>".toList) = true) by decide),
    if_pos (show ['<'].isPrefixOf ("<t>".toList) = true by decide),
    if_pos (show (!(['<'].isPrefixOf
        (List.replicate 40 'x' ++ '-' :: List.replicate 40 'y')) &&
      ("</".toList).isPrefixOf ("</t>".toList)) = true by decide),
    if_pos (show MAX_WIDTH < (normalizeWS
        (List.replicate 40 'x' ++ '-' :: List.replicate 40 'y')).length by decide),
    hnil]
  decide
